import Mathlib

/-!
# govariant: extraction of variants from annotated interface declarations

A shallow embedding of `parse.go`, `types.go`, `generate.go` and the naming of
the output files in `main.go`.

The Go standard library is outside the program.  Its syntax tree (`go/ast`) is
embedded as plain data, every node storing the offset its `Pos` method reports;
`parser.ParseFile`, `parser.ParseExpr`, `format.Node` and `format.Source` are
taken as inputs of the functions that call them.  A run-time panic (an index
out of range) is a third outcome, kept apart from returned errors.
-/

namespace Govariant

/-! ## Source positions and errors -/

/-- Offsets of `token.Pos`; `0` is `token.NoPos`. -/
abbrev Pos := Nat

/-- What a call can end in besides a result. -/
inductive Error where
  /-- The value built by `parseError`: rendered by Go as
  `<position>: govariant: <message>`. -/
  | parse (message : String) (position : Pos)
  /-- An error handed up unchanged from the standard library. -/
  | foreign (text : String)
  /-- A run-time panic: the program stops, nothing is returned. -/
  | panic (reason : String)
  deriving DecidableEq, Repr

deriving instance DecidableEq for Except

/-- Function `parseError` of `parse.go`. -/
def parseError (message : String) (position : Pos) : Error :=
  Error.parse message position

/-! ## Strings -/

namespace strings

/-- White space as `unicode.IsSpace` sees it. -/
def isSpace (c : Char) : Bool :=
  let n := c.toNat
  n == 9 || n == 10 || n == 11 || n == 12 || n == 13 || n == 32 ||
  n == 0x85 || n == 0xA0 || n == 0x1680 || (0x2000 ≤ n && n ≤ 0x200A) ||
  n == 0x2028 || n == 0x2029 || n == 0x202F || n == 0x205F || n == 0x3000

/-- Scanner behind `Fields`: `cur` holds the current token, reversed. -/
def fieldsAux : List Char → List Char → List String
  | [], cur => if cur.isEmpty then [] else [String.mk cur.reverse]
  | c :: cs, cur =>
    if isSpace c then
      if cur.isEmpty then fieldsAux cs [] else String.mk cur.reverse :: fieldsAux cs []
    else fieldsAux cs (c :: cur)

/-- Function `strings.Fields`: the maximal runs of non-space characters. -/
def Fields (s : String) : List String := fieldsAux s.data []

/-- Separator test of `strings.Title`: ASCII letters, digits and the
underscore are not separators, every other ASCII character is; a rune outside
ASCII is a separator exactly when it is white space. -/
def isSeparator (c : Char) : Bool :=
  let n := c.toNat
  if n ≤ 0x7F then
    !((48 ≤ n && n ≤ 57) || (97 ≤ n && n ≤ 122) || (65 ≤ n && n ≤ 90) || n == 95)
  else isSpace c

/-- The rune mapping of `strings.Title`; `prev` is the rune before.  The
argument `toTitle` is `unicode.ToTitle`: the case tables of Unicode belong to
the standard library and are an input here. -/
def titleAux (toTitle : Char → Char) : Char → List Char → List Char
  | _, [] => []
  | prev, r :: rs =>
    (if isSeparator prev then toTitle r else r) :: titleAux toTitle r rs

/-- Function `strings.Title`: the first letter of every word in title case,
`toTitle` being `unicode.ToTitle`. -/
def Title (toTitle : Char → Char) (s : String) : String :=
  String.mk (titleAux toTitle (Char.ofNat 32) s.data)

/-- Function `strings.Join`. -/
def Join (elems : List String) (sep : String) : String := sep.intercalate elems

end strings

/-! ## The syntax tree of `go/ast` -/

/-- One comment, `ast.Comment`; `text` includes the `//` or `/*` marker. -/
structure Comment where
  slash : Pos
  text : String
  deriving DecidableEq, Repr

/-- A comment group, `ast.CommentGroup`: its `List`.  The empty list stands
for Go's nil slice. -/
abbrev CommentGroup := List Comment

/-- An identifier, `ast.Ident`. -/
structure Ident where
  namePos : Pos
  name : String
  deriving DecidableEq, Repr

/-- Kinds of `ast.BasicLit`. -/
inductive LitKind where
  | INT | FLOAT | IMAG | CHAR | STRING
  deriving DecidableEq, Repr

mutual
/-- Expressions and types, `ast.Expr`.  The first argument of every node is
the offset returned by its `Pos` method. -/
inductive Expr where
  | ident (namePos : Pos) (name : String)
  | basicLit (valuePos : Pos) (kind : LitKind) (value : String)
  | ellipsis (pos : Pos) (elt : Option Expr)
  | starExpr (star : Pos) (x : Expr)
  | funcType (pos : Pos) (params : FieldList) (results : Option FieldList)
  | interfaceType (pos : Pos) (methods : FieldList)
  | structType (pos : Pos) (fields : FieldList)
  /-- Every other node (selector, array, map, channel, ...). -/
  | other (pos : Pos) (src : String)
/-- A field, method or parameter declaration, `ast.Field`. -/
inductive Field where
  | mk (doc : Option CommentGroup) (names : List Ident) (type : Expr)
      (comment : Option CommentGroup)
/-- A list of fields with its brackets, `ast.FieldList`. -/
inductive FieldList where
  | mk (opening : Pos) (list : List Field) (closing : Pos)
end

namespace Expr

/-- Method `Pos` of an expression node. -/
def Pos : Expr → Govariant.Pos
  | ident p _ => p
  | basicLit p _ _ => p
  | ellipsis p _ => p
  | starExpr p _ => p
  | funcType p _ _ => p
  | interfaceType p _ => p
  | structType p _ => p
  | other p _ => p

/-- Type test `.(*ast.Ellipsis)`. -/
def isEllipsis : Expr → Bool
  | ellipsis _ _ => true
  | _ => false

/-- Type test `.(*ast.InterfaceType)`. -/
def isInterfaceType : Expr → Bool
  | interfaceType _ _ => true
  | _ => false

/-- Type test `.(*ast.StarExpr)`. -/
def isStarExpr : Expr → Bool
  | starExpr _ _ => true
  | _ => false

/-- Type test `.(*ast.FuncType)`. -/
def isFuncType : Expr → Bool
  | funcType _ _ _ => true
  | _ => false

end Expr

namespace Field

def doc : Field → Option CommentGroup
  | mk d _ _ _ => d

def names : Field → List Ident
  | mk _ n _ _ => n

def type : Field → Expr
  | mk _ _ t _ => t

def comment : Field → Option CommentGroup
  | mk _ _ _ c => c

/-- Method `Pos` of `ast.Field`: the first name, else the type. -/
def Pos (f : Field) : Govariant.Pos :=
  match f.names with
  | n :: _ => n.namePos
  | [] => f.type.Pos

end Field

namespace FieldList

def opening : FieldList → Govariant.Pos
  | mk o _ _ => o

def list : FieldList → List Field
  | mk _ l _ => l

def closing : FieldList → Govariant.Pos
  | mk _ _ c => c

/-- Method `Pos` of `ast.FieldList`. -/
def Pos (f : FieldList) : Govariant.Pos :=
  if f.opening ≠ 0 then f.opening
  else match f.list with
    | g :: _ => g.Pos
    | [] => 0

/-- Method `NumFields` of `ast.FieldList`: the number of declared names, an
unnamed field counting for one. -/
def NumFields (f : FieldList) : Nat :=
  (f.list.map fun g => if g.names.length = 0 then 1 else g.names.length).sum

end FieldList

/-- The node `ast.InterfaceType`. -/
structure InterfaceType where
  interface : Pos
  methods : FieldList

/-! ## `parse.go`: classification of interface members -/

/-- Whether the comment line has `tag` as its second token. -/
def secondTokenIs (text : String) (tag : String) : Bool :=
  match strings.Fields text with
  | _ :: t :: _ => t == tag
  | _ => false

/-- The checks made on one parameter by the loop of `isConstructor`
(lines 189-214); `numFields` is `funcType.Params.NumFields()`. -/
def checkParam (numFields : Nat) (param : Field) : Except Error Unit :=
  if param.type.isEllipsis then
    .error (parseError "cannot have variadic constructor" param.Pos)
  else if param.names.length = 0 ∧ param.type.isInterfaceType then
    .error (parseError "cannot have an unnamed interface type in constructor" param.Pos)
  else if param.names.length = 0 ∧ param.type.isStarExpr then
    .error (parseError "cannot have an unnamed pointer type in constructor" param.Pos)
  else if numFields > 1 ∧ param.names.length = 0 then
    .error (parseError "cannot have multiple unnamed parameters in a constructor" param.Pos)
  else if numFields > 1 ∧ param.names.length > 1 then
    .error (parseError "cannot use a name list as parameters in a constructor" param.Pos)
  else .ok ()

/-- The parameter loop of `isConstructor`: the first failing check ends it. -/
def checkParams (numFields : Nat) : List Field → Except Error Unit
  | [] => .ok ()
  | p :: ps =>
    match checkParam numFields p with
    | .error e => .error e
    | .ok _ => checkParams numFields ps

/-- The `@method` annotation test of `isConstructor` (lines 169-171). -/
def hasMethodAnnotation (field : Field) : Option Comment :=
  match field.comment with
  | some (c :: _) => if secondTokenIs c.text "@method" then some c else none
  | _ => none

/-- Function `isConstructor`: whether an interface member can be used as a
constructor. -/
def isConstructor (field : Field) : Except Error Bool :=
  match hasMethodAnnotation field with
  | some c =>
    match field.type with
    | .funcType _ _ _ => .ok false
    | _ => .error (parseError "cannot annotate interface with @method" c.slash)
  | none =>
    match field.type with
    | .funcType _ params results =>
      match results with
      | some r => .error (parseError "cannot have a return type on a constructor" r.Pos)
      | none =>
        match checkParams params.NumFields params.list with
        | .error e => .error e
        | .ok _ => .ok true
    | _ => .ok false


/-! ## `types.go`: the variant model -/

/-- Struct `parameter`. -/
structure parameter where
  Name : String
  Typ : Expr

/-- Struct `constructor`. -/
structure constructor where
  Name : String
  Parameters : List parameter

/-- Struct `variant`.  `Methods` is the interface node the variant was made
from, as `variantFromInterface` leaves it. -/
structure variant where
  Name : String
  Package : String
  Imports : List String
  Constructors : List constructor
  Methods : InterfaceType
  ExplicitCheck : Bool
  Unpack : Bool
  Visitor : Bool

/-- The command-line flags of `main.go`. -/
structure Flags where
  noCheck : Bool
  noUnpack : Bool
  noVisitor : Bool

/-- The node `ast.FuncType`. -/
structure FuncType where
  func : Pos
  params : FieldList
  results : Option FieldList

/-! ## `parse.go`: from an interface to a variant -/

/-- The loop of `parametersFromFuncType`: an unnamed field ends it at once
with that field alone. -/
def parametersLoop : List Field → List parameter → List parameter
  | [], result => result
  | param :: rest, result =>
    match param.names with
    | [] => [{ Name := "", Typ := param.type }]
    | n :: _ => parametersLoop rest (result ++ [{ Name := n.name, Typ := param.type }])

/-- Function `parametersFromFuncType`. -/
def parametersFromFuncType (funcType : FuncType) : List parameter :=
  parametersLoop funcType.params.list []

/-- Function `appendMethod`: one more method at the end of the list.  The
synthesized signature has no `func` keyword, so its position is that of its
parameter list. -/
def appendMethod (list : List Field) (name : String) (params results : List Field) :
    List Field :=
  list ++ [Field.mk none [{ namePos := 0, name := name }]
    (Expr.funcType (FieldList.mk 0 params 0).Pos (FieldList.mk 0 params 0)
      (some (FieldList.mk 0 results 0))) none]

/-- Line 142: `field.Comment, field.Doc = nil, nil`. -/
def clearComments (field : Field) : Field :=
  Field.mk none field.names field.type none

/-- Lines 137-140: the constructor made from a member.  `field.Names[0]`
panics on a member without a name, the type assertion on a member that is not
a function signature. -/
def constructorOf (field : Field) : Except Error constructor :=
  match field.names with
  | [] => .error (.panic "index out of range")
  | n :: _ =>
    match field.type with
    | .funcType p params results =>
      .ok { Name := n.name, Parameters := parametersFromFuncType ⟨p, params, results⟩ }
    | _ => .error (.panic "interface conversion")

/-- The backward loop of `variantFromInterface` (lines 124-143).  The first
argument is `i + 1`; the state is the method list, cut in place, and the
constructors collected so far. -/
def methodLoop : Nat → List Field → List constructor →
    Except Error (List Field × List constructor)
  | 0, methods, constructors => .ok (methods, constructors)
  | i + 1, methods, constructors =>
    match methods[i]? with
    | none => .error (.panic "index out of range")
    | some field =>
      match isConstructor field with
      | .error e => .error e
      | .ok true =>
        match constructorOf field with
        | .error e => .error e
        | .ok c => methodLoop i (methods.take i ++ methods.drop (i + 1)) (constructors ++ [c])
      | .ok false => methodLoop i (methods.set i (clearComments field)) constructors

/-- One exchange `s[i], s[j] = s[j], s[i]`. -/
def swap {α : Type} (s : List α) (i j : Nat) : List α :=
  match s[i]?, s[j]? with
  | some a, some b => (s.set i b).set j a
  | _, _ => s

/-- The loop of lines 149-152, `for i, j := 0, len-1; i < j; i, j = i+1, j-1`.
The first argument bounds the number of rounds. -/
def reverseLoop {α : Type} : Nat → Nat → Nat → List α → List α
  | 0, _, _, s => s
  | fuel + 1, i, j, s => if i < j then reverseLoop fuel (i + 1) (j - 1) (swap s i j) else s

/-- Lines 148-152: the constructor list reversed in place. -/
def reverseInPlace {α : Type} (s : List α) : List α :=
  reverseLoop s.length 0 (s.length - 1) s

/-- Function `variantFromInterface`: a variant made from an interface
declaration. -/
def variantFromInterface (toTitle : Char → Char) (flags : Flags) (interfaceType : InterfaceType)
    (variantName packageName : String) (imports : List String) : Except Error variant :=
  match methodLoop interfaceType.methods.NumFields interfaceType.methods.list [] with
  | .error e => .error e
  | .ok (methods, constructors) =>
    if constructors.length = 0 then
      .error (parseError "must have at least one constructor" interfaceType.interface)
    else
      let constructors := reverseInPlace constructors
      let methods :=
        if !flags.noVisitor then
          appendMethod methods "Visit"
            [Field.mk none [] (Expr.ident 0 (variantName ++ "Visitor")) none] []
        else methods
      let methods := appendMethod methods ("is" ++ strings.Title toTitle variantName) [] []
      .ok { Name := variantName
            Package := packageName
            Imports := imports
            Constructors := constructors
            Methods := { interface := interfaceType.interface
                         methods := FieldList.mk interfaceType.methods.opening methods
                           interfaceType.methods.closing }
            ExplicitCheck := !flags.noCheck
            Unpack := !flags.noUnpack
            Visitor := !flags.noVisitor }


/-! ## `parse.go`: the declarations of a file -/

/-- A specification inside a general declaration, `ast.Spec`. -/
inductive Spec where
  | typeSpec (name : Ident) (type : Expr)
  /-- An `ast.ImportSpec` or `ast.ValueSpec`. -/
  | other

/-- A general declaration, `ast.GenDecl`. -/
structure GenDecl where
  doc : Option CommentGroup
  tokPos : Pos
  lparen : Pos
  specs : List Spec
  rparen : Pos

/-- A top-level declaration, `ast.Decl`. -/
inductive Decl where
  | genDecl (d : GenDecl)
  /-- An `ast.FuncDecl` or `ast.BadDecl`. -/
  | other

/-- A parsed file, `ast.File`. -/
structure File where
  name : Ident
  decls : List Decl

/-- The import loop of `variantsFromFile` (lines 49-68) over the lines of one
documentation block. -/
def importsLoop (parseExpr : String → Except Error Expr) :
    List Comment → List String → Except Error (List String)
  | [], imports => .ok imports
  | comment :: rest, imports =>
    let commentFields := strings.Fields comment.text
    if commentFields.length = 2 ∧ commentFields[1]? = some "@import" then
      .error (parseError "missing package name in @import" comment.slash)
    else if commentFields.length ≥ 2 ∧ commentFields[1]? = some "@import" then
      match commentFields[2]? with
      | none => .error (.panic "index out of range")
      | some token =>
        match parseExpr token with
        | .error _ =>
          .error (parseError "@import package name failed to parse as string" comment.slash)
        | .ok (.basicLit _ .STRING value) => importsLoop parseExpr rest (imports ++ [value])
        | .ok _ =>
          .error (parseError "@import package name failed to parse as string" comment.slash)
    else importsLoop parseExpr rest imports

/-- What lines 25-86 establish about a declaration that carries the
`@variant` annotation. -/
structure candidate where
  variantName : String
  imports : List String
  typeSpecPos : Pos
  interfaceType : InterfaceType

/-- Lines 30-47 of `variantsFromFile`: what the last documentation line
declares.  `none` when the declaration is skipped, else the variant name. -/
def annotatedName (parseExpr : String → Except Error Expr) (lastComment : Comment) :
    Except Error (Option String) :=
  let fields := strings.Fields lastComment.text
  if fields.length ≥ 2 ∧ fields[1]? ≠ some "@variant" then .ok none
  else if fields.length < 3 then
    .error (parseError "missing variant name" lastComment.slash)
  else
    match fields[2]? with
    | none => .error (.panic "index out of range")
    | some token =>
      match parseExpr token with
      | .ok (.ident _ variantName) => .ok (some variantName)
      | _ => .error (parseError "variant name is not a valid go identifier" lastComment.slash)

/-- Lines 69-86 of `variantsFromFile`: the interface behind the declaration,
with the position of its type specification. -/
def interfaceOf (genDecl : GenDecl) : Except Error (Pos × InterfaceType) :=
  if ¬(genDecl.lparen = 0 ∧ genDecl.rparen = 0) then
    .error (parseError "type declaration must not be surrounded by parentheses" genDecl.tokPos)
  else
    match genDecl.specs with
    | [] => .error (.panic "index out of range")
    | .other :: _ =>
      .error (parseError "variant must be a defined with a type declaration" genDecl.tokPos)
    | .typeSpec name type :: _ =>
      if name.name ≠ "_" then
        .error (parseError "type declaration must be named _" name.namePos)
      else
        match type with
        | .interfaceType pos methods => .ok (name.namePos, ⟨pos, methods⟩)
        | _ => .error (parseError "type must be defined as an interface" name.namePos)

/-- Lines 25-86 of `variantsFromFile`, the part of the loop body that does not
look at the names seen: `none` when the declaration is skipped. -/
def candidateOf (parseExpr : String → Except Error Expr) (decl : Decl) :
    Except Error (Option candidate) :=
  match decl with
  | .other => .ok none
  | .genDecl genDecl =>
    match genDecl.doc with
    | none => .ok none
    | some docList =>
      match docList.getLast? with
      | none => .error (.panic "index out of range")
      | some lastComment =>
        match annotatedName parseExpr lastComment with
        | .error e => .error e
        | .ok none => .ok none
        | .ok (some variantName) =>
          match importsLoop parseExpr docList [] with
          | .error e => .error e
          | .ok imports =>
            match interfaceOf genDecl with
            | .error e => .error e
            | .ok (typeSpecPos, interfaceType) =>
              .ok (some { variantName := variantName
                          imports := imports
                          typeSpecPos := typeSpecPos
                          interfaceType := interfaceType })

/-- The body of the declaration loop of `variantsFromFile` (lines 25-100) for
one declaration: `none` when the declaration is skipped, else the variant name
and the variant made.  `variantNames` is the set of names seen so far. -/
def declStep (toTitle : Char → Char)
    (flags : Flags) (parseExpr : String → Except Error Expr) (packageName : String)
    (variantNames : List String) (decl : Decl) : Except Error (Option (String × variant)) :=
  match candidateOf parseExpr decl with
  | .error e => .error e
  | .ok none => .ok none
  | .ok (some c) =>
    if c.variantName ∈ variantNames then
      .error (parseError
        ("cannot have duplicate variant names in file (" ++ c.variantName ++ ")") c.typeSpecPos)
    else
      match variantFromInterface toTitle flags c.interfaceType c.variantName packageName c.imports with
      | .error e => .error e
      | .ok variantResult => .ok (some (c.variantName, variantResult))

/-- The declaration loop of `variantsFromFile` (lines 24-101); the state is
the set of variant names seen and the variants collected. -/
def declLoop (toTitle : Char → Char)
    (flags : Flags) (parseExpr : String → Except Error Expr) (packageName : String) :
    List Decl → List String → List variant → Except Error (List variant)
  | [], _, variants => .ok variants
  | decl :: rest, variantNames, variants =>
    match declStep toTitle flags parseExpr packageName variantNames decl with
    | .error e => .error e
    | .ok none => declLoop toTitle flags parseExpr packageName rest variantNames variants
    | .ok (some (variantName, variantResult)) =>
      declLoop toTitle flags parseExpr packageName rest (variantName :: variantNames)
        (variants ++ [variantResult])

/-- Function `variantsFromFile`: all the variants of a file.  `parsed` is
what `parser.ParseFile` gave for the path. -/
def variantsFromFile (toTitle : Char → Char)
    (flags : Flags) (parseExpr : String → Except Error Expr)
    (parsed : Except Error File) : Except Error (List variant) :=
  match parsed with
  | .error e => .error e
  | .ok parsedFile => declLoop toTitle flags parseExpr parsedFile.name.name parsedFile.decls [] []


/-! ## `types.go`: the shape of a constructor -/

/-- The loop of lines 38-46: one struct field per parameter. -/
def structFieldsLoop : List parameter → List Field → List Field
  | [], list => list
  | param :: rest, list =>
    structFieldsLoop rest
      (list ++ [Field.mk none [{ namePos := 0, name := param.Name }] param.Typ none])

/-- Method `Type` of `constructor`: the type declared for the constructor. -/
def constructor.Typ (c : constructor) : Expr :=
  match c.Parameters with
  | [] => Expr.structType 0 (FieldList.mk 0 [] 0)
  | [p] =>
    if p.Name = "" then p.Typ
    else Expr.structType 0 (FieldList.mk 0 (structFieldsLoop c.Parameters []) 0)
  | _ => Expr.structType 0 (FieldList.mk 0 (structFieldsLoop c.Parameters []) 0)

/-- The loop of lines 59-65: the parameter types as source text. -/
def paramTypesLoop (gofmt : Expr → Except Error String) :
    List parameter → List String → Except Error (List String)
  | [], paramTypes => .ok paramTypes
  | param :: rest, paramTypes =>
    match gofmt param.Typ with
    | .error e => .error e
    | .ok paramType => paramTypesLoop gofmt rest (paramTypes ++ [paramType])

/-- Method `UnpackTypes` of `constructor`; `gofmt` is `format.Node` behind
function `gofmt` of `generate.go`. -/
def constructor.UnpackTypes (gofmt : Expr → Except Error String) (c : constructor)
    (optionalParen : Bool) : Except Error String :=
  if c.Parameters.length = 0 then
    if optionalParen then .ok "" else .ok "()"
  else
    match paramTypesLoop gofmt c.Parameters [] with
    | .error e => .error e
    | .ok paramTypes =>
      if optionalParen ∧ c.Parameters.length = 1 then
        match paramTypes with
        | [] => .error (.panic "index out of range")
        | t :: _ => .ok (t ++ "")
      else .ok ("(" ++ strings.Join paramTypes ", " ++ ") ")

/-- The loop of lines 88-90: the field selections `rcv.<name>`. -/
def valuesLoop : List parameter → List String → List String
  | [], values => values
  | param :: rest, values => valuesLoop rest (values ++ ["rcv." ++ param.Name])

/-- Method `UnpackValues` of `constructor`. -/
def constructor.UnpackValues (gofmt : Expr → Except Error String) (c : constructor) :
    Except Error String :=
  match c.Parameters with
  | [] => .ok ""
  | [p] =>
    if p.Name = "" then
      match gofmt p.Typ with
      | .error e => .error e
      | .ok typeString => .ok ("(" ++ typeString ++ ")(rcv)")
    else .ok ("rcv." ++ p.Name)
  | _ => .ok (strings.Join (valuesLoop c.Parameters []) ", ")

/-! ## `generate.go`: the template -/

/-- Function `command`: the command line with the program name replaced;
`args` is `os.Args`.  Without a first argument `args[0]` panics, which
`text/template` hands back as an error of the execution. -/
def command (args : List String) : Except Error String :=
  match args with
  | [] => .error (.foreign "index out of range")
  | _ :: rest => .ok (strings.Join ("govariant" :: rest) " ")

/-- A `range` action of `text/template`: the body runs on every element in
order, the outputs are written one after the other, the first error ends the
execution. -/
def execRange {α : Type} (body : α → Except Error String) : List α → Except Error String
  | [] => .ok ""
  | x :: xs =>
    match body x with
    | .error e => .error e
    | .ok out =>
      match execRange body xs with
      | .error e => .error e
      | .ok more => .ok (out ++ more)

/-- Template line 25, the body of the range inside the visitor struct. -/
def visitorFieldText (toTitle : Char → Char)
    (gofmt : Expr → Except Error String) (c : constructor) :
    Except Error String :=
  match c.UnpackTypes gofmt false with
  | .error e => .error e
  | .ok types => .ok ("\n\t" ++ strings.Title toTitle c.Name ++ " func" ++ types)

/-- Template lines 22-28: the visitor struct, when `.Visitor` holds. -/
def visitorStructText (toTitle : Char → Char) (gofmt : Expr → Except Error String) (v : variant) :
    Except Error String :=
  if v.Visitor then
    match execRange (visitorFieldText toTitle gofmt) v.Constructors with
    | .error e => .error e
    | .ok fields => .ok (" \ntype " ++ v.Name ++ "Visitor struct \x7b" ++ fields ++ "\n\x7d \n")
  else .ok ""

/-- Template lines 29-31, the body of the range: one type declaration. -/
def typeDeclText (gofmt : Expr → Except Error String) (c : constructor) : Except Error String :=
  match gofmt c.Typ with
  | .error e => .error e
  | .ok type => .ok ("\ntype " ++ c.Name ++ " " ++ type ++ "\n")

/-- Template line 34: the `Unpack` method, when `$v.Unpack` holds. -/
def unpackMethodText (gofmt : Expr → Except Error String) (v : variant) (c : constructor) :
    Except Error String :=
  if v.Unpack then
    match c.UnpackTypes gofmt true with
    | .error e => .error e
    | .ok types =>
      match c.UnpackValues gofmt with
      | .error e => .error e
      | .ok values =>
        .ok ("func (rcv " ++ c.Name ++ ") Unpack() " ++ types ++ " \x7b return " ++ values
          ++ " \x7d\n")
  else .ok ""

/-- Template line 36: the `Visit` method, when `$v.Visitor` holds. -/
def visitMethodText (toTitle : Char → Char)
    (gofmt : Expr → Except Error String) (v : variant) (c : constructor) :
    Except Error String :=
  if v.Visitor then
    match c.UnpackValues gofmt with
    | .error e => .error e
    | .ok values =>
      .ok ("func (rcv " ++ c.Name ++ ") Visit(v " ++ v.Name ++ "Visitor) \x7b v."
        ++ strings.Title toTitle c.Name ++ "(" ++ values ++ ") \x7d \n")
  else .ok ""

/-- Template lines 32-37, the body of the range: the methods of one
constructor. -/
def methodsText (toTitle : Char → Char)
    (gofmt : Expr → Except Error String) (v : variant) (c : constructor) :
    Except Error String :=
  match unpackMethodText gofmt v c with
  | .error e => .error e
  | .ok unpack =>
    match visitMethodText toTitle gofmt v c with
    | .error e => .error e
    | .ok visit =>
      .ok ("\nfunc (" ++ c.Name ++ ") is" ++ strings.Title toTitle v.Name ++ "() \x7b\x7d\n"
        ++ unpack ++ visit)

/-- Template lines 39-44: the explicit implementation checks. -/
def checksText (v : variant) : String :=
  if v.ExplicitCheck then
    "\nvar (" ++ String.join (v.Constructors.map fun c =>
      "\n\t_ " ++ v.Name ++ " = struct\x7b " ++ c.Name ++ " \x7d\x7b\x7d") ++ "\n)\n"
  else ""

/-- The execution of `variantTemplate` on a variant: the text written, the
trim markers of the template applied. -/
def executeTemplate (toTitle : Char → Char)
    (args : List String) (gofmt : Expr → Except Error String) (v : variant) :
    Except Error String :=
  match command args with
  | .error e => .error e
  | .ok cmd =>
    match gofmt (Expr.interfaceType v.Methods.interface v.Methods.methods) with
    | .error e => .error e
    | .ok methods =>
      match visitorStructText toTitle gofmt v with
      | .error e => .error e
      | .ok visitor =>
        match execRange (typeDeclText gofmt) v.Constructors with
        | .error e => .error e
        | .ok types =>
          match execRange (methodsText toTitle gofmt v) v.Constructors with
          | .error e => .error e
          | .ok funcs =>
            .ok ("// Code generated by " ++ cmd ++ "; DO NOT EDIT.\npackage " ++ v.Package
              ++ "\n\nimport (" ++ String.join (v.Imports.map fun i => "  \n\t" ++ i)
              ++ "\n)\n\ntype " ++ v.Name ++ " " ++ methods ++ "\n"
              ++ visitor ++ types ++ funcs ++ checksText v)

/-- Function `generateSourceCode`; `formatSource` is `format.Source`. -/
def generateSourceCode (toTitle : Char → Char)
    (args : List String) (gofmt : Expr → Except Error String)
    (formatSource : String → Except Error String) (variantStruct : variant) :
    Except Error String :=
  match executeTemplate toTitle args gofmt variantStruct with
  | .error e => .error e
  | .ok buf => formatSource buf

/-! ## Specification vocabulary and sample inputs -/

/-- A member annotated with `@method`: the first line of its trailing comment
has `@method` as its second token. -/
def annotatedMethod (field : Field) : Prop :=
  ∃ c rest, field.comment = some (c :: rest) ∧
    ∃ first more, strings.Fields c.text = first :: "@method" :: more

/-- The type `float64` of the example. -/
def float64 : Expr := Expr.ident 0 "float64"

/-- Member `Square(length float64)` of `example/example.go`. -/
def squareField : Field :=
  Field.mk none [⟨11, "Square"⟩]
    (Expr.funcType 17 (FieldList.mk 17 [Field.mk none [⟨18, "length"⟩] float64 none] 32) none) none

/-- The name of a field: its first identifier, empty when there is none. -/
def firstName (f : Field) : String :=
  match f.names with
  | n :: _ => n.name
  | [] => ""

/-- The method `Visit(<Name>Visitor)` synthesized at lines 155-158. -/
def visitMethod (variantName : String) : Field :=
  Field.mk none [{ namePos := 0, name := "Visit" }]
    (Expr.funcType 0
      (FieldList.mk 0 [Field.mk none [] (Expr.ident 0 (variantName ++ "Visitor")) none] 0)
      (some (FieldList.mk 0 [] 0))) none

/-- The marker method `is<Name>()` synthesized at line 161. -/
def markerMethod (toTitle : Char → Char) (variantName : String) : Field :=
  Field.mk none [{ namePos := 0, name := "is" ++ strings.Title toTitle variantName }]
    (Expr.funcType 0 (FieldList.mk 0 [] 0) (some (FieldList.mk 0 [] 0))) none

/-- The declaration carries the annotation `@variant` for the name `n`: the
last line of its documentation has `@variant` as second token and a third
token that parses as the identifier `n`. -/
def declares (parseExpr : String → Except Error Expr) (d : Decl) (n : String) : Prop :=
  ∃ gd docList lastComment first token more namePos,
    d = Decl.genDecl gd ∧ gd.doc = some docList ∧ docList.getLast? = some lastComment ∧
    strings.Fields lastComment.text = first :: "@variant" :: token :: more ∧
    parseExpr token = .ok (Expr.ident namePos n)

/-- The declaration is passed over by the loop of `variantsFromFile`. -/
def skipped (parseExpr : String → Except Error Expr) (d : Decl) : Bool :=
  match candidateOf parseExpr d with
  | .ok none => true
  | _ => false

/-- The declaration is a candidate from which the variant `v` is made. -/
def produces (toTitle : Char → Char)
    (flags : Flags) (parseExpr : String → Except Error Expr) (packageName : String)
    (d : Decl) (v : variant) : Prop :=
  ∃ c, candidateOf parseExpr d = .ok (some c) ∧
    variantFromInterface toTitle flags c.interfaceType c.variantName packageName c.imports = .ok v

/-- What `go/parser` guarantees of a declaration: a documentation block has a
line, a declaration without parentheses has a specification, and a member of
an interface has at most one name, exactly one when it is a method. -/
def wellFormedDecl (d : Decl) : Prop :=
  ∀ gd, d = Decl.genDecl gd →
    gd.doc ≠ some [] ∧
    (gd.lparen = 0 → gd.rparen = 0 → gd.specs ≠ []) ∧
    ∀ name pos methods rest,
      gd.specs = Spec.typeSpec name (Expr.interfaceType pos methods) :: rest →
      ∀ f ∈ methods.list, f.names.length ≤ 1 ∧ (f.type.isFuncType = true → f.names ≠ [])

/-- Identifiers are not empty: the names of the parameters of a method. -/
def paramNamesNonEmpty (f : Field) : Prop :=
  ∀ pos params results, f.type = Expr.funcType pos params results →
    ∀ q ∈ params.list, ∀ id ∈ q.names, id.name ≠ ""

/-- A stand-in for `unicode.ToTitle` on the examples, which are ASCII: a small
ASCII letter gives its capital, every other rune is kept. -/
def asciiToTitle (c : Char) : Char :=
  if 97 ≤ c.toNat ∧ c.toNat ≤ 122 then Char.ofNat (c.toNat - 32) else c

/-- A stand-in for `unicode.ToLower` on the examples, which are ASCII: a
capital ASCII letter gives its small letter, every other rune is kept. -/
def asciiToLower (c : Char) : Char :=
  if 65 ≤ c.toNat ∧ c.toNat ≤ 90 then Char.ofNat (c.toNat + 32) else c

/-- A formatter for the examples: identifiers print as their name. -/
def identFmt : Expr → Except Error String
  | Expr.ident _ n => .ok n
  | _ => .error (.foreign "unsupported node")

/-- A stand-in for `parser.ParseExpr` on the tokens of the examples: a token
in double quotes is a string literal, any other an identifier. -/
def tokenExpr (s : String) : Except Error Expr :=
  match s.data with
  | c :: _ =>
    if c.toNat = 34 then .ok (Expr.basicLit 0 LitKind.STRING s) else .ok (Expr.ident 0 s)
  | [] => .error (.foreign "empty expression")

/-- All three flags unset: every part is generated. -/
def allOn : Flags := { noCheck := false, noUnpack := false, noVisitor := false }

/-- Member `Rectangle(length float64, width float64)`. -/
def rectangleField : Field :=
  Field.mk none [⟨40, "Rectangle"⟩]
    (Expr.funcType 49 (FieldList.mk 49
      [Field.mk none [⟨50, "length"⟩] float64 none, Field.mk none [⟨66, "width"⟩] float64 none]
      79) none) none

/-- Member `Circle(radius float64)`. -/
def circleField : Field :=
  Field.mk none [⟨90, "Circle"⟩]
    (Expr.funcType 96 (FieldList.mk 96 [Field.mk none [⟨97, "radius"⟩] float64 none] 111) none) none

/-- Member `String() string // @method`. -/
def stringField : Field :=
  Field.mk none [⟨120, "String"⟩]
    (Expr.funcType 126 (FieldList.mk 126 [] 127)
      (some (FieldList.mk 0 [Field.mk none [] (Expr.ident 129 "string") none] 0)))
    (some [⟨136, "// @method"⟩])

/-- The interface of `example/example.go`. -/
def shapeInterface : InterfaceType :=
  { interface := 5
    methods := FieldList.mk 15 [squareField, rectangleField, circleField, stringField] 150 }

/-- The variant `Shape` of `example/example.go`, all flags unset. -/
def shapeVariant : variant :=
  { Name := "Shape", Package := "main", Imports := []
    Constructors :=
      [⟨"Square", [⟨"length", float64⟩]⟩,
       ⟨"Rectangle", [⟨"length", float64⟩, ⟨"width", float64⟩]⟩,
       ⟨"Circle", [⟨"radius", float64⟩]⟩]
    Methods :=
      { interface := 5
        methods := FieldList.mk 15
          [clearComments stringField, visitMethod "Shape", markerMethod asciiToTitle "Shape"] 150 }
    ExplicitCheck := true, Unpack := true, Visitor := true }

/-- The declaration `// @variant Shape` of `example/example.go`. -/
def shapeDecl : Decl :=
  Decl.genDecl { doc := some [⟨1, "// @variant Shape"⟩], tokPos := 20, lparen := 0,
                 specs := [Spec.typeSpec ⟨25, "_"⟩ (Expr.interfaceType 5 shapeInterface.methods)],
                 rparen := 0 }

/-- The file `example/example.go`: a function, the variant, more functions. -/
def shapeFile : File := { name := ⟨0, "main"⟩, decls := [Decl.other, shapeDecl, Decl.other] }

/-- The invariants of a variant: it has a constructor, and a parameter without
a name is the only parameter of its constructor. -/
def wellFormedVariant (v : variant) : Prop :=
  v.Constructors ≠ [] ∧
  (∀ c ∈ v.Constructors, 1 < c.Parameters.length → ∀ p ∈ c.Parameters, p.Name ≠ "") ∧
  (∀ c ∈ v.Constructors, ∀ p ∈ c.Parameters, p.Name = "" → c.Parameters = [p])

/-- Member `Foo(*int, int)`: two parameters without a name, the first a
pointer. -/
def pointerIntField : Field :=
  Field.mk none [⟨1, "Foo"⟩]
    (Expr.funcType 4 (FieldList.mk 4
      [Field.mk none [] (Expr.starExpr 5 (Expr.ident 6 "int")) none,
       Field.mk none [] (Expr.ident 11 "int") none] 14) none) none

/-- Member `Bar(int, string)`: two parameters without a name. -/
def intStringField : Field :=
  Field.mk none [⟨1, "Bar"⟩]
    (Expr.funcType 4 (FieldList.mk 4
      [Field.mk none [] (Expr.ident 5 "int") none,
       Field.mk none [] (Expr.ident 10 "string") none] 16) none) none

/-- The file `//nolint` / `var debug = false`: a documented declaration whose
last documentation line is a single token. -/
def nolintFile : File :=
  { name := ⟨0, "main"⟩
    decls := [Decl.genDecl { doc := some [⟨14, "//nolint"⟩], tokPos := 23, lparen := 0,
                             specs := [Spec.other], rparen := 0 }] }

/-- A file that declares the variant `Shape` twice. -/
def twiceFile : File := { name := ⟨0, "main"⟩, decls := [shapeDecl, Decl.other, shapeDecl] }

/-- Constructor `Wrap(float64)`: one parameter without a name. -/
def wrapConstructor : constructor := ⟨"Wrap", [⟨"", float64⟩]⟩

/-- Constructor `Rectangle(length float64, width float64)`. -/
def rectangleConstructor : constructor :=
  ⟨"Rectangle", [⟨"length", float64⟩, ⟨"width", float64⟩]⟩

/-- Member `foo()`. -/
def lowerFooField : Field :=
  Field.mk none [⟨30, "foo"⟩] (Expr.funcType 33 (FieldList.mk 33 [] 34) none) none

/-- Member `Foo()`. -/
def upperFooField : Field :=
  Field.mk none [⟨40, "Foo"⟩] (Expr.funcType 43 (FieldList.mk 43 [] 44) none) none

/-- The interface `interface { foo(); Foo() }`. -/
def fooInterface : InterfaceType :=
  { interface := 20, methods := FieldList.mk 28 [lowerFooField, upperFooField] 50 }

/-- The variant `T` made from `fooInterface`, all flags unset. -/
def fooVariant : variant :=
  { Name := "T", Package := "main", Imports := []
    Constructors := [⟨"foo", []⟩, ⟨"Foo", []⟩]
    Methods :=
      { interface := 20
        methods := FieldList.mk 28 [visitMethod "T", markerMethod asciiToTitle "T"] 50 }
    ExplicitCheck := true, Unpack := true, Visitor := true }

/-- Member `fmt.Stringer // @method`: an embedded interface carrying the
annotation. -/
def embeddedAnnotatedField : Field :=
  Field.mk none [] (Expr.other 140 "fmt.Stringer") (some [⟨153, "// @method"⟩])

/-- Member `Area() float64`: a signature with a result and no annotation. -/
def areaField : Field :=
  Field.mk none [⟨160, "Area"⟩]
    (Expr.funcType 164 (FieldList.mk 164 [] 165)
      (some (FieldList.mk 0 [Field.mk none [] (Expr.ident 167 "float64") none] 0))) none

/-- Member `Scale(factors ...float64)`: a variadic signature. -/
def scaleField : Field :=
  Field.mk none [⟨180, "Scale"⟩]
    (Expr.funcType 185 (FieldList.mk 185
      [Field.mk none [⟨186, "factors"⟩] (Expr.ellipsis 194 (some float64)) none] 204) none) none

/-- The interface `interface { Area() float64; Square(length float64);
Scale(factors ...float64); Circle(radius float64) }`: two invalid members. -/
def twoInvalidInterface : InterfaceType :=
  { interface := 5
    methods := FieldList.mk 15 [areaField, squareField, scaleField, circleField] 210 }

/-- The backward loop of `variantFromInterface` (lines 124-143) with a record
of its reads: next to the outcome of `methodLoop`, the index `i` of every
iteration run with the element `interfaceType.Methods.List[i]` found there,
`none` for an index outside the list. -/
def methodLoopTraced : Nat → List Field → List constructor →
    Except Error (List Field × List constructor) × List (Nat × Option Field)
  | 0, methods, constructors => (.ok (methods, constructors), [])
  | i + 1, methods, constructors =>
    match methods[i]? with
    | none => (.error (.panic "index out of range"), [(i, none)])
    | some field =>
      let rest : Except Error (List Field × List constructor) × List (Nat × Option Field) :=
        match isConstructor field with
        | .error e => (.error e, [])
        | .ok true =>
          match constructorOf field with
          | .error e => (.error e, [])
          | .ok c =>
            methodLoopTraced i (methods.take i ++ methods.drop (i + 1)) (constructors ++ [c])
        | .ok false => methodLoopTraced i (methods.set i (clearComments field)) constructors
      (rest.1, (i, some field) :: rest.2)

/-- The reads of a loop that looks at every member of the original list once,
from the last index down to the first. -/
def allReads (original : List Field) : List (Nat × Option Field) :=
  (List.range original.length).reverse.map fun i => (i, original[i]?)

/-- The declaration `// @variant` / `type _ interface ...`: the annotation
without a name. -/
def namelessDecl : Decl :=
  Decl.genDecl { doc := some [⟨300, "// @variant"⟩], tokPos := 312, lparen := 0,
                 specs := [Spec.typeSpec ⟨317, "_"⟩ (Expr.interfaceType 319 shapeInterface.methods)],
                 rparen := 0 }

/-- A file with a valid variant, then the declaration without a name, then
the valid variant again. -/
def namelessFile : File :=
  { name := ⟨0, "main"⟩, decls := [shapeDecl, namelessDecl, shapeDecl] }

/-- The first value `variantsFromFile` returns in Go: every error return of
the function is `return nil, ...`. -/
def returnedVariants (r : Except Error (List variant)) : List variant :=
  match r with
  | .ok variants => variants
  | .error _ => []

/-- The third token of a documentation line whose second token is `@import`. -/
def importToken (line : Comment) : Option String :=
  match strings.Fields line.text with
  | _ :: second :: token :: _ => if second = "@import" then some token else none
  | _ => none

/-- The import a documentation line declares: the value of the string literal
its third token parses as. -/
def importValue (parseExpr : String → Except Error Expr) (line : Comment) : Option String :=
  match importToken line with
  | some token =>
    match parseExpr token with
    | .ok (Expr.basicLit _ LitKind.STRING value) => some value
    | _ => none
  | none => none

/-- The declaration `// @import fmt` / `// @variant "Shape"`: an import line
whose third token is no string literal, above a variant name that is no
identifier. -/
def quotedNameDecl : Decl :=
  Decl.genDecl { doc := some [⟨400, "// @import fmt"⟩, ⟨415, "// @variant \x22Shape\x22"⟩],
                 tokPos := 436, lparen := 0,
                 specs := [Spec.typeSpec ⟨441, "_"⟩ (Expr.interfaceType 443 shapeInterface.methods)],
                 rparen := 0 }

/-- The file with the declaration `quotedNameDecl` alone. -/
def quotedNameFile : File := { name := ⟨0, "main"⟩, decls := [quotedNameDecl] }

/-- The general declaration `// @import "fmt"` / `// @import "math"` /
`// @variant Shape` over the interface of the example. -/
def importingGenDecl : GenDecl :=
  { doc := some [⟨500, "// @import \x22fmt\x22"⟩, ⟨518, "// @import \x22math\x22"⟩,
                 ⟨537, "// @variant Shape"⟩],
    tokPos := 555, lparen := 0,
    specs := [Spec.typeSpec ⟨560, "_"⟩ (Expr.interfaceType 5 shapeInterface.methods)],
    rparen := 0 }

/-- The general declaration `// @import fmt` / `// @variant Shape`: the third
token of the import line is no string literal. -/
def bareImportGenDecl : GenDecl :=
  { doc := some [⟨600, "// @import fmt"⟩, ⟨615, "// @variant Shape"⟩],
    tokPos := 633, lparen := 0,
    specs := [Spec.typeSpec ⟨638, "_"⟩ (Expr.interfaceType 5 shapeInterface.methods)],
    rparen := 0 }

namespace strings

/-- Function `strings.ToLower`: every rune in lower case.  The argument
`toLower` is `unicode.ToLower`, an input like `unicode.ToTitle`. -/
def ToLower (toLower : Char → Char) (s : String) : String :=
  String.mk (s.data.map toLower)

end strings

/-- Line 46 of `main.go`: the name of the file generated for a variant, which
`main` joins to the directory of the input file. -/
def outputFileName (toLower : Char → Char) (v : variant) : String :=
  strings.ToLower toLower v.Name ++ "_variant.go"

/-- The name of the marker method of a variant, line 161 of `parse.go`. -/
def markerName (toTitle : Char → Char) (variantName : String) : String :=
  "is" ++ strings.Title toTitle variantName

/-- The declaration `// @variant shape` over the interface of the example. -/
def lowerShapeDecl : Decl :=
  Decl.genDecl { doc := some [⟨700, "// @variant shape"⟩], tokPos := 718, lparen := 0,
                 specs := [Spec.typeSpec ⟨723, "_"⟩ (Expr.interfaceType 5 shapeInterface.methods)],
                 rparen := 0 }

/-- The variant `shape` made from `lowerShapeDecl`, all flags unset. -/
def lowerShapeVariant : variant :=
  { Name := "shape", Package := "main", Imports := []
    Constructors :=
      [⟨"Square", [⟨"length", float64⟩]⟩,
       ⟨"Rectangle", [⟨"length", float64⟩, ⟨"width", float64⟩]⟩,
       ⟨"Circle", [⟨"radius", float64⟩]⟩]
    Methods :=
      { interface := 5
        methods := FieldList.mk 15
          [clearComments stringField, visitMethod "shape", markerMethod asciiToTitle "shape"] 150 }
    ExplicitCheck := true, Unpack := true, Visitor := true }

/-- A file that declares the variants `Shape` and `shape`. -/
def caseFile : File := { name := ⟨0, "main"⟩, decls := [shapeDecl, lowerShapeDecl] }

/-- A stand-in for `format.Node` on the examples: an identifier prints as its
name, an interface or struct type as its keyword and empty braces. -/
def nodeFmt : Expr → Except Error String
  | Expr.ident _ n => .ok n
  | Expr.interfaceType _ _ => .ok "interface\x7b\x7d"
  | Expr.structType _ _ => .ok "struct\x7b\x7d"
  | _ => .error (.foreign "unsupported node")

/-- A stand-in for `format.Source` that gives the text back as it is. -/
def keepText (src : String) : Except Error String := .ok src

/-- Template lines 13-14 up to the package name: the header comment with the
command line, `cmd` being what `command` returns. -/
def headerText (cmd : String) : String :=
  "// Code generated by " ++ cmd ++ "; DO NOT EDIT.\npackage "

/-- The declaration `// @variant Point` / `type _ struct{}`: the annotation
above a type that is no interface. -/
def structDecl : Decl :=
  Decl.genDecl { doc := some [⟨200, "// @variant Point"⟩], tokPos := 218, lparen := 0,
                 specs := [Spec.typeSpec ⟨223, "_"⟩ (Expr.structType 225 (FieldList.mk 231 [] 232))],
                 rparen := 0 }

/-- A file with the declaration over a struct, then the declaration without a
name. -/
def structThenNamelessFile : File :=
  { name := ⟨0, "main"⟩, decls := [structDecl, namelessDecl] }

/-- The declaration `// @variant Color` over the interface of the example. -/
def colorDecl : Decl :=
  Decl.genDecl { doc := some [⟨800, "// @variant Color"⟩], tokPos := 818, lparen := 0,
                 specs := [Spec.typeSpec ⟨823, "_"⟩ (Expr.interfaceType 5 shapeInterface.methods)],
                 rparen := 0 }

/-- The variant `Color` made from `colorDecl`, all flags unset. -/
def colorVariant : variant :=
  { Name := "Color", Package := "main", Imports := []
    Constructors :=
      [⟨"Square", [⟨"length", float64⟩]⟩,
       ⟨"Rectangle", [⟨"length", float64⟩, ⟨"width", float64⟩]⟩,
       ⟨"Circle", [⟨"radius", float64⟩]⟩]
    Methods :=
      { interface := 5
        methods := FieldList.mk 15
          [clearComments stringField, visitMethod "Color", markerMethod asciiToTitle "Color"] 150 }
    ExplicitCheck := true, Unpack := true, Visitor := true }

/-- A file that declares the variants `Shape` and `Color`. -/
def shapeColorFile : File := { name := ⟨0, "main"⟩, decls := [shapeDecl, colorDecl] }

/-! # Theorems -/

variable {toTitle toLower : Char → Char}

/-! ## Facts about `isConstructor` -/

theorem checkParams_ok_iff (n : Nat) (ps : List Field) :
    checkParams n ps = .ok () ↔ ∀ p ∈ ps, checkParam n p = .ok () := by
  induction ps with
  | nil => simp [checkParams]
  | cons p ps ih =>
    simp only [checkParams, List.mem_cons, forall_eq_or_imp]
    cases h : checkParam n p with
    | error e => simp
    | ok u => simp [ih]

theorem checkParam_ok_iff (n : Nat) (p : Field) :
    checkParam n p = .ok () ↔
      p.type.isEllipsis = false ∧
      (p.names = [] → p.type.isInterfaceType = false ∧ p.type.isStarExpr = false) ∧
      (n > 1 → p.names.length = 1) := by
  unfold checkParam
  cases hE : p.type.isEllipsis <;> cases hI : p.type.isInterfaceType <;>
    cases hS : p.type.isStarExpr <;> rcases hn : p.names with _ | ⟨a, _ | ⟨b, l⟩⟩ <;>
    by_cases h1 : n > 1 <;> simp [h1]

theorem checkParam_error_parse (n : Nat) (p : Field) (e : Error)
    (h : checkParam n p = .error e) : ∃ m, e = .parse m p.Pos := by
  unfold checkParam at h
  split_ifs at h <;> exact ⟨_, (Except.error.inj h).symm⟩

theorem checkParams_error_parse (n : Nat) (ps : List Field) (e : Error)
    (h : checkParams n ps = .error e) : ∃ m pos, e = .parse m pos := by
  induction ps with
  | nil => simp [checkParams] at h
  | cons p ps ih =>
    simp only [checkParams] at h
    cases hp : checkParam n p with
    | error e' =>
      rw [hp] at h
      obtain ⟨m, hm⟩ := checkParam_error_parse n p e' hp
      exact ⟨m, _, by rw [← Except.error.inj h, hm]⟩
    | ok u => rw [hp] at h; exact ih h

theorem isConstructor_error_parse (f : Field) (e : Error)
    (h : isConstructor f = .error e) : ∃ m pos, e = .parse m pos := by
  unfold isConstructor at h
  split at h
  · split at h
    · cases h
    · exact ⟨_, _, (Except.error.inj h).symm⟩
  · split at h
    · split at h
      · exact ⟨_, _, (Except.error.inj h).symm⟩
      · split at h
        · rename_i e' he
          exact checkParams_error_parse _ _ _ (by rw [he, ← Except.error.inj h])
        · cases h
    · cases h

theorem isConstructor_true_iff (field : Field) (h : hasMethodAnnotation field = none) :
    isConstructor field = .ok true ↔
      ∃ pos params, field.type = Expr.funcType pos params none ∧
        ∀ param ∈ params.list,
          param.type.isEllipsis = false ∧
          (param.names = [] →
            param.type.isInterfaceType = false ∧ param.type.isStarExpr = false) ∧
          (params.NumFields > 1 → param.names.length = 1) := by
  unfold isConstructor
  rw [h]
  cases ht : field.type with
  | funcType pos params results =>
    cases results with
    | some r => simp
    | none =>
      simp only [Expr.funcType.injEq, and_true]
      constructor
      · intro hc
        refine ⟨pos, params, ⟨rfl, rfl⟩, ?_⟩
        intro p hp
        have : checkParams params.NumFields params.list = .ok () := by
          cases hcp : checkParams params.NumFields params.list with
          | error e => rw [hcp] at hc; cases hc
          | ok u => rfl
        exact (checkParam_ok_iff _ _).1 ((checkParams_ok_iff _ _).1 this p hp)
      · rintro ⟨pos', params', ⟨rfl, rfl⟩, hall⟩
        have : checkParams params.NumFields params.list = .ok () :=
          (checkParams_ok_iff _ _).2 fun p hp => (checkParam_ok_iff _ _).2 (hall p hp)
        rw [this]
  | _ => simp

theorem secondTokenIs_iff (text tag : String) :
    secondTokenIs text tag = true ↔ ∃ first more, strings.Fields text = first :: tag :: more := by
  unfold secondTokenIs
  rcases strings.Fields text with _ | ⟨a, _ | ⟨b, l⟩⟩ <;> simp

theorem hasMethodAnnotation_none_iff (field : Field) :
    hasMethodAnnotation field = none ↔ ¬annotatedMethod field := by
  unfold hasMethodAnnotation annotatedMethod
  rcases hc : field.comment with _ | (_ | ⟨c, rest⟩)
  · simp
  · simp
  · by_cases h : secondTokenIs c.text "@method" = true
    · have h' := (secondTokenIs_iff _ _).1 h
      simp [h]
      exact h'
    · have h' := mt (secondTokenIs_iff c.text "@method").2 h
      simp [h]
      simpa using h'

theorem structFieldsLoop_eq (ps : List parameter) (acc : List Field) :
    structFieldsLoop ps acc =
      acc ++ ps.map fun p => Field.mk none [{ namePos := 0, name := p.Name }] p.Typ none := by
  induction ps generalizing acc with
  | nil => simp [structFieldsLoop]
  | cons p ps ih => simp [structFieldsLoop, ih]

theorem paramTypesLoop_eq (gofmt : Expr → Except Error String) (ps : List parameter)
    (ts acc : List String) (h : List.Forall₂ (fun p t => gofmt p.Typ = .ok t) ps ts) :
    paramTypesLoop gofmt ps acc = .ok (acc ++ ts) := by
  induction h generalizing acc with
  | nil => simp [paramTypesLoop]
  | cons hpt _ ih => simp [paramTypesLoop, hpt, ih]

theorem valuesLoop_eq (ps : List parameter) (acc : List String) :
    valuesLoop ps acc = acc ++ ps.map fun p => "rcv." ++ p.Name := by
  induction ps generalizing acc with
  | nil => simp [valuesLoop]
  | cons p ps ih => simp [valuesLoop, ih]


/-! ## The reversal loop -/

theorem swap_ends {α : Type} (a mid b : List α) (x y : α) :
    swap (a ++ x :: (mid ++ y :: b)) a.length (a.length + mid.length + 1) =
      a ++ y :: (mid ++ x :: b) := by
  have h1 : (a ++ x :: (mid ++ y :: b))[a.length]? = some x := by
    rw [List.getElem?_append_right (le_refl _)]; simp
  have h2 : (a ++ x :: (mid ++ y :: b))[a.length + mid.length + 1]? = some y := by
    rw [List.getElem?_append_right (by omega)]
    have : a.length + mid.length + 1 - a.length = mid.length + 1 := by omega
    rw [this, List.getElem?_cons_succ, List.getElem?_append_right (le_refl _)]
    simp
  have e1 : (a ++ x :: (mid ++ y :: b)).set a.length y = a ++ y :: (mid ++ y :: b) := by
    rw [List.set_append_right _ _ (le_refl _)]
    simp
  have e2 : (a ++ y :: (mid ++ y :: b)).set (a.length + mid.length + 1) x
      = a ++ y :: (mid ++ x :: b) := by
    rw [List.set_append_right _ _ (by omega)]
    have : a.length + mid.length + 1 - a.length = mid.length + 1 := by omega
    rw [this, List.set_cons_succ, List.set_append_right _ _ (le_refl _)]
    simp
  unfold swap
  rw [h1, h2]
  simp only [e1, e2]

theorem reverseLoop_eq {α : Type} (fuel : Nat) :
    ∀ (a mid b : List α), mid.length ≤ fuel →
      reverseLoop fuel a.length (a.length + mid.length - 1) (a ++ mid ++ b) =
        a ++ mid.reverse ++ b := by
  induction fuel with
  | zero =>
    intro a mid b h
    have : mid = [] := List.length_eq_zero.1 (Nat.le_zero.1 h)
    subst this
    simp [reverseLoop]
  | succ fuel ih =>
    intro a mid b h
    rcases mid with _ | ⟨x, rest⟩
    · simp [reverseLoop]
    · rcases List.eq_nil_or_concat rest with rfl | ⟨mid', y, rfl⟩
      · simp [reverseLoop]
      · rw [List.concat_eq_append] at h ⊢
        have hj : a.length + (x :: (mid' ++ [y])).length - 1 = a.length + mid'.length + 1 := by
          simp; omega
        rw [hj]
        unfold reverseLoop
        have hlt : a.length < a.length + mid'.length + 1 := by omega
        rw [if_pos hlt]
        have hs : a ++ x :: (mid' ++ [y]) ++ b = a ++ x :: (mid' ++ y :: b) := by simp
        rw [hs, swap_ends]
        have hlen : mid'.length ≤ fuel := by
          simp at h; omega
        have := ih (a ++ [y]) mid' (x :: b) hlen
        simp only [List.length_append, List.length_singleton] at this
        have hj2 : a.length + mid'.length + 1 - 1 = a.length + 1 + mid'.length - 1 := by omega
        rw [hj2]
        have hs2 : a ++ y :: (mid' ++ x :: b) = a ++ [y] ++ mid' ++ x :: b := by simp
        rw [hs2, this]
        simp

theorem reverseInPlace_eq {α : Type} (s : List α) : reverseInPlace s = s.reverse := by
  have := reverseLoop_eq s.length [] s [] (le_refl _)
  simpa [reverseInPlace] using this

/-! ## The member loop -/

theorem length_le_NumFields (fl : FieldList) : fl.list.length ≤ fl.NumFields := by
  unfold FieldList.NumFields
  generalize fl.list = l
  induction l with
  | nil => simp
  | cons f l ih =>
    simp only [List.length_cons, List.map_cons, List.sum_cons]
    split <;> omega

theorem NumFields_eq_length_iff (fl : FieldList) :
    fl.NumFields = fl.list.length ↔ ∀ f ∈ fl.list, f.names.length ≤ 1 := by
  unfold FieldList.NumFields
  generalize fl.list = l
  induction l with
  | nil => simp
  | cons f l ih =>
    have hl := length_le_NumFields (FieldList.mk 0 l 0)
    simp only [FieldList.NumFields, FieldList.list] at hl
    simp only [List.length_cons, List.map_cons, List.sum_cons, List.mem_cons, forall_eq_or_imp]
    rw [← ih]
    split <;> omega

theorem methodLoop_overrun (n : Nat) (methods : List Field) (cs : List constructor)
    (h : methods.length < n) :
    methodLoop n methods cs = .error (.panic "index out of range") := by
  cases n with
  | zero => omega
  | succ i =>
    have : methods[i]? = none := by
      rw [List.getElem?_eq_none]; omega
    simp [methodLoop, this]

theorem methodLoop_snoc (pre suf : List Field) (f : Field) (cs : List constructor) :
    methodLoop (pre.length + 1) (pre ++ f :: suf) cs =
      match isConstructor f with
      | .error e => .error e
      | .ok true =>
        match constructorOf f with
        | .error e => .error e
        | .ok c => methodLoop pre.length (pre ++ suf) (cs ++ [c])
      | .ok false => methodLoop pre.length (pre ++ clearComments f :: suf) cs := by
  have h1 : (pre ++ f :: suf)[pre.length]? = some f := by
    rw [List.getElem?_append_right (le_refl _)]; simp
  have h2 : (pre ++ f :: suf).take pre.length ++ (pre ++ f :: suf).drop (pre.length + 1)
      = pre ++ suf := by
    simp [List.take_append_eq_append_take, List.drop_append_eq_append_drop]
  have h3 : (pre ++ f :: suf).set pre.length (clearComments f)
      = pre ++ clearComments f :: suf := by
    rw [List.set_append_right _ _ (le_refl _)]; simp
  rw [methodLoop]
  simp only [h1, h2, h3]


/-- Every member of a list the loop gets through was classified. -/
theorem methodLoop_ok (pre : List Field) :
    ∀ (suf : List Field) (cs : List constructor) (ms : List Field) (cs' : List constructor),
      methodLoop pre.length (pre ++ suf) cs = .ok (ms, cs') →
        (∀ f ∈ pre, isConstructor f = .ok true ∨ isConstructor f = .ok false) ∧
        ms = (pre.filter fun f => decide (isConstructor f = .ok false)).map clearComments ++ suf ∧
        ∃ made : List constructor,
          cs' = cs ++ made.reverse ∧
          List.Forall₂ (fun f c => constructorOf f = .ok c)
            (pre.filter fun f => decide (isConstructor f = .ok true)) made := by
  induction pre using List.reverseRecOn with
  | nil =>
    intro suf cs ms cs' h
    simp only [List.length_nil, List.nil_append, methodLoop, Except.ok.injEq, Prod.mk.injEq] at h
    obtain ⟨rfl, rfl⟩ := h
    exact ⟨by simp, by simp, [], by simp, by simp⟩
  | append_singleton pre f ih =>
    intro suf cs ms cs' h
    rw [List.length_append, List.length_singleton, List.append_assoc, List.singleton_append,
      methodLoop_snoc] at h
    rcases hc : isConstructor f with e | b
    · rw [hc] at h; cases h
    · rw [hc] at h
      cases b
      · obtain ⟨h1, h2, made, h3, h4⟩ := ih _ _ _ _ h
        refine ⟨?_, ?_, made, h3, ?_⟩
        · intro g hg
          rcases List.mem_append.1 hg with hg | hg
          · exact h1 g hg
          · rw [List.mem_singleton.1 hg, hc]; exact Or.inr rfl
        · rw [h2]; simp [List.filter_append, hc]
        · simpa [List.filter_append, hc] using h4
      · rcases hk : constructorOf f with e | c
        · rw [hk] at h; cases h
        · rw [hk] at h
          obtain ⟨h1, h2, made, h3, h4⟩ := ih _ _ _ _ h
          refine ⟨?_, ?_, made ++ [c], ?_, ?_⟩
          · intro g hg
            rcases List.mem_append.1 hg with hg | hg
            · exact h1 g hg
            · rw [List.mem_singleton.1 hg, hc]; exact Or.inl rfl
          · rw [h2]; simp [List.filter_append, hc]
          · rw [h3]; simp
          · simp only [List.filter_append, hc, List.filter_cons, decide_True, if_true,
              List.filter_nil]
            exact List.rel_append h4 (List.Forall₂.cons hk List.Forall₂.nil)

theorem constructorOf_ok_iff (f : Field) (c : constructor) :
    constructorOf f = .ok c ↔
      ∃ n rest pos params results, f.names = n :: rest ∧
        f.type = Expr.funcType pos params results ∧
        c = { Name := n.name, Parameters := parametersFromFuncType ⟨pos, params, results⟩ } := by
  unfold constructorOf
  rcases hn : f.names with _ | ⟨n, rest⟩
  · simp
  · cases ht : f.type <;> simp
    constructor
    · intro hc; exact ⟨_, _, _, ⟨rfl, rfl, rfl⟩, hc.symm⟩
    · rintro ⟨_, _, _, ⟨rfl, rfl, rfl⟩, hc⟩; exact hc.symm

theorem variantFromInterface_ok (flags : Flags) (it : InterfaceType) (name pkg : String)
    (imports : List String) (v : variant)
    (h : variantFromInterface toTitle flags it name pkg imports = .ok v) :
    it.methods.NumFields = it.methods.list.length ∧
    (∀ f ∈ it.methods.list, isConstructor f = .ok true ∨ isConstructor f = .ok false) ∧
    List.Forall₂ (fun f c => constructorOf f = .ok c)
      (it.methods.list.filter fun f => decide (isConstructor f = .ok true)) v.Constructors ∧
    v.Constructors ≠ [] ∧
    v.Methods.methods.list =
      (it.methods.list.filter fun f => decide (isConstructor f = .ok false)).map clearComments
        ++ (if v.Visitor then [visitMethod name] else []) ++ [markerMethod toTitle name] ∧
    v.Methods.interface = it.interface ∧
    v.Name = name ∧ v.Package = pkg ∧ v.Imports = imports ∧
    v.ExplicitCheck = !flags.noCheck ∧ v.Unpack = !flags.noUnpack ∧
    v.Visitor = !flags.noVisitor := by
  have hlen : it.methods.NumFields = it.methods.list.length := by
    by_contra hne
    have hlt : it.methods.list.length < it.methods.NumFields :=
      lt_of_le_of_ne (length_le_NumFields _) (Ne.symm hne)
    simp [variantFromInterface, methodLoop_overrun _ _ _ hlt] at h
  unfold variantFromInterface at h
  rw [hlen] at h
  rcases hl : methodLoop it.methods.list.length it.methods.list [] with e | ⟨ms, cs⟩
  · rw [hl] at h; cases h
  · rw [hl] at h
    have hl' : methodLoop it.methods.list.length (it.methods.list ++ []) [] = .ok (ms, cs) := by
      simpa using hl
    obtain ⟨h1, h2, made, h3, h4⟩ := methodLoop_ok _ _ _ _ _ hl'
    simp only [List.nil_append] at h3
    simp only [List.append_nil] at h2
    by_cases hz : cs.length = 0
    · simp [hz] at h
    · simp only [hz, if_false, Except.ok.injEq] at h
      subst h
      have hrev : reverseInPlace cs = made := by
        rw [reverseInPlace_eq, h3, List.reverse_reverse]
      refine ⟨hlen, h1, ?_, ?_, ?_, rfl, rfl, rfl, rfl, rfl, rfl, rfl⟩
      · simpa [hrev] using h4
      · simp only [hrev]
        intro hm
        apply hz
        rw [h3, hm]; rfl
      · cases hv : flags.noVisitor <;>
          simp [hv, h2, appendMethod, visitMethod, markerMethod, FieldList.list, FieldList.Pos,
            FieldList.opening, Field.Pos, Field.names, Field.type, Expr.Pos]

theorem parametersLoop_named (fs : List Field) (acc : List parameter)
    (h : ∀ f ∈ fs, f.names ≠ []) :
    parametersLoop fs acc = acc ++ fs.map fun f => { Name := firstName f, Typ := f.type } := by
  induction fs generalizing acc with
  | nil => simp [parametersLoop]
  | cons f fs ih =>
    have hf := h f (List.mem_cons_self _ _)
    rcases hn : f.names with _ | ⟨n, rest⟩
    · exact absurd hn hf
    · simp [parametersLoop, hn, firstName, ih _ (fun g hg => h g (List.mem_cons_of_mem _ hg))]

theorem parametersLoop_unnamed (fs : List Field) (acc : List parameter)
    (h : ∃ f ∈ fs, f.names = []) :
    ∃ T, parametersLoop fs acc = [{ Name := "", Typ := T }] := by
  induction fs generalizing acc with
  | nil => simp at h
  | cons f fs ih =>
    rcases hn : f.names with _ | ⟨n, rest⟩
    · exact ⟨f.type, by simp [parametersLoop, hn]⟩
    · obtain ⟨g, hg, hgn⟩ := h
      rcases List.mem_cons.1 hg with rfl | hg
      · rw [hn] at hgn; cases hgn
      · simp only [parametersLoop, hn]
        exact ih _ ⟨g, hg, hgn⟩

theorem isConstructor_true_imp (f : Field) (h : isConstructor f = .ok true) :
    ∃ pos params, f.type = Expr.funcType pos params none ∧
      ∀ p ∈ params.list, checkParam params.NumFields p = .ok () := by
  unfold isConstructor at h
  split at h
  · split at h <;> cases h
  · split at h
    · rename_i pos params results ht
      split at h
      · cases h
      · split at h
        · cases h
        · rename_i u hu
          exact ⟨pos, params, ht, (checkParams_ok_iff _ _).1 hu⟩
    · cases h

theorem importsLoop_error_parse (pe : String → Except Error Expr) (cs : List Comment)
    (acc : List String) (e : Error) (h : importsLoop pe cs acc = .error e) :
    ∃ m pos, e = .parse m pos := by
  induction cs generalizing acc with
  | nil => simp [importsLoop] at h
  | cons c cs ih =>
    simp only [importsLoop] at h
    split_ifs at h with h1 h2
    · exact ⟨_, _, (Except.error.inj h).symm⟩
    · split at h
      · rename_i hnone
        exfalso
        rw [List.getElem?_eq_none_iff] at hnone
        have : (strings.Fields c.text).length = 2 := by
          rcases hf : strings.Fields c.text with _ | ⟨a, _ | ⟨b, _ | ⟨d, l⟩⟩⟩
          · rw [hf] at h2; simp at h2
          · rw [hf] at h2; simp at h2
          · rfl
          · rw [hf] at hnone; simp at hnone
        exact h1 ⟨this, h2.2⟩
      · split at h
        · exact ⟨_, _, (Except.error.inj h).symm⟩
        · exact ih _ h
        · exact ⟨_, _, (Except.error.inj h).symm⟩
    · exact ih _ h

/-- The three outcomes of `annotatedName`, by the tokens of the line. -/
theorem annotatedName_cases (pe : String → Except Error Expr) (c : Comment) :
    ((strings.Fields c.text).length < 2 ∧
      annotatedName pe c = .error (parseError "missing variant name" c.slash)) ∨
    (∃ first second more, strings.Fields c.text = first :: second :: more ∧
      second ≠ "@variant" ∧ annotatedName pe c = .ok none) ∨
    (∃ first, strings.Fields c.text = [first, "@variant"] ∧
      annotatedName pe c = .error (parseError "missing variant name" c.slash)) ∨
    (∃ first token more, strings.Fields c.text = first :: "@variant" :: token :: more ∧
      ((∃ namePos n, pe token = .ok (Expr.ident namePos n) ∧ annotatedName pe c = .ok (some n)) ∨
       ((∀ namePos n, pe token ≠ .ok (Expr.ident namePos n)) ∧
        annotatedName pe c =
          .error (parseError "variant name is not a valid go identifier" c.slash)))) := by
  unfold annotatedName
  rcases hf : strings.Fields c.text with _ | ⟨a, _ | ⟨b, _ | ⟨t, l⟩⟩⟩
  · left; simp
  · left; simp
  · by_cases hb : b = "@variant"
    · right; right; left
      subst hb
      exact ⟨a, rfl, by simp⟩
    · right; left
      exact ⟨a, b, [], rfl, hb, by simp [hb]⟩
  · by_cases hb : b = "@variant"
    · right; right; right
      subst hb
      refine ⟨a, t, l, rfl, ?_⟩
      have h3 : ¬ (l.length + 1 + 1 + 1 < 3) := by omega
      simp only [List.length_cons, ge_iff_le, List.getElem?_cons_succ, List.getElem?_cons_zero,
        ne_eq, not_true_eq_false, and_false, if_false, h3]
      rcases hpe : pe t with e | x
      · right; exact ⟨(by intro _ _ h; cases h), rfl⟩
      · cases x with
        | ident p n => left; exact ⟨p, n, rfl, rfl⟩
        | _ => right; exact ⟨(by intro _ _ h; cases h), rfl⟩
    · right; left
      exact ⟨a, b, t :: l, rfl, hb, by simp [hb]⟩

theorem annotatedName_error_parse (pe : String → Except Error Expr) (c : Comment) (e : Error)
    (h : annotatedName pe c = .error e) : ∃ m pos, e = .parse m pos := by
  rcases annotatedName_cases pe c with ⟨_, h'⟩ | ⟨_, _, _, _, _, h'⟩ | ⟨_, _, h'⟩ |
    ⟨_, _, _, _, ⟨_, _, _, h'⟩ | ⟨_, h'⟩⟩ <;> rw [h'] at h <;>
    first | exact ⟨_, _, (Except.error.inj h).symm⟩ | cases h

theorem interfaceOf_ok (gd : GenDecl) (pos : Pos) (it : InterfaceType)
    (h : interfaceOf gd = .ok (pos, it)) :
    ∃ name rest, gd.lparen = 0 ∧ gd.rparen = 0 ∧
      gd.specs = Spec.typeSpec name (Expr.interfaceType it.interface it.methods) :: rest ∧
      name.name = "_" ∧ pos = name.namePos := by
  unfold interfaceOf at h
  by_cases hp : gd.lparen = 0 ∧ gd.rparen = 0
  · simp only [hp, and_self, not_true_eq_false, if_false] at h
    rcases hs : gd.specs with _ | ⟨sp, rest⟩
    · rw [hs] at h; cases h
    · rw [hs] at h
      cases sp with
      | other => cases h
      | typeSpec name type =>
        by_cases hn : name.name = "_"
        · simp only [hn, ne_eq, not_true_eq_false, if_false] at h
          cases type <;> cases h
          exact ⟨name, rest, hp.1, hp.2, rfl, hn, rfl⟩
        · simp [hn] at h
  · simp [hp] at h

theorem interfaceOf_error_parse (gd : GenDecl) (e : Error)
    (hs : gd.lparen = 0 → gd.rparen = 0 → gd.specs ≠ [])
    (h : interfaceOf gd = .error e) : ∃ m pos, e = .parse m pos := by
  unfold interfaceOf at h
  by_cases hp : gd.lparen = 0 ∧ gd.rparen = 0
  · simp only [hp, and_self, not_true_eq_false, if_false] at h
    rcases hsp : gd.specs with _ | ⟨sp, rest⟩
    · exact absurd hsp (hs hp.1 hp.2)
    · rw [hsp] at h
      cases sp with
      | other => exact ⟨_, _, (Except.error.inj h).symm⟩
      | typeSpec name type =>
        by_cases hn : name.name = "_"
        · simp only [hn, ne_eq, not_true_eq_false, if_false] at h
          cases type <;> cases h <;> exact ⟨_, _, rfl⟩
        · simp only [hn, ne_eq, not_false_eq_true, if_true] at h
          exact ⟨_, _, (Except.error.inj h).symm⟩
  · simp only [hp, not_false_eq_true, if_true] at h
    exact ⟨_, _, (Except.error.inj h).symm⟩

theorem candidateOf_some_inv (pe : String → Except Error Expr) (d : Decl) (c : candidate)
    (h : candidateOf pe d = .ok (some c)) :
    ∃ gd docList lastComment, d = Decl.genDecl gd ∧ gd.doc = some docList ∧
      docList.getLast? = some lastComment ∧
      annotatedName pe lastComment = .ok (some c.variantName) ∧
      importsLoop pe docList [] = .ok c.imports ∧
      interfaceOf gd = .ok (c.typeSpecPos, c.interfaceType) := by
  unfold candidateOf at h
  split at h
  · cases h
  · rename_i gd
    split at h
    · cases h
    · rename_i docList hdoc
      split at h
      · cases h
      · rename_i lastComment hlast
        split at h
        · cases h
        · cases h
        · rename_i n hn
          split at h
          · cases h
          · rename_i imports himp
            split at h
            · cases h
            · rename_i pos it hit
              simp only [Except.ok.injEq, Option.some.injEq] at h
              subst h
              exact ⟨gd, docList, lastComment, rfl, hdoc, hlast, hn, himp, hit⟩

theorem candidateOf_some_declares (pe : String → Except Error Expr) (d : Decl) (c : candidate)
    (h : candidateOf pe d = .ok (some c)) : declares pe d c.variantName := by
  obtain ⟨gd, docList, lastComment, hd, hdoc, hlast, hn, _, _⟩ := candidateOf_some_inv pe d c h
  rcases annotatedName_cases pe lastComment with ⟨_, h'⟩ | ⟨_, _, _, _, _, h'⟩ | ⟨_, _, h'⟩ |
    ⟨first, token, more, hf, ⟨namePos, n, hpe, h'⟩ | ⟨_, h'⟩⟩ <;> rw [h'] at hn <;>
    cases hn
  exact ⟨gd, docList, lastComment, first, token, more, namePos, hd, hdoc, hlast, hf, hpe⟩

theorem declares_annotatedName (pe : String → Except Error Expr) (c : Comment)
    (first token : String) (ml : List String) (namePos : Pos) (n : String)
    (hf : strings.Fields c.text = first :: "@variant" :: token :: ml)
    (hpe : pe token = .ok (Expr.ident namePos n)) :
    annotatedName pe c = .ok (some n) := by
  rcases annotatedName_cases pe c with ⟨hl, _⟩ | ⟨_, s, _, hf', hs, _⟩ | ⟨_, hf', _⟩ |
    ⟨_, token', _, hf', ⟨_, n', hpe', h'⟩ | ⟨hno, _⟩⟩
  · rw [hf] at hl; simp at hl; omega
  · rw [hf] at hf'; simp at hf'; exact absurd hf'.2.1.symm hs
  · rw [hf] at hf'; simp at hf'
  · rw [hf] at hf'; simp at hf'
    rw [← hf'.2.1, hpe] at hpe'
    simp at hpe'
    rw [h', hpe'.2]
  · rw [hf] at hf'; simp at hf'
    rw [← hf'.2.1] at hno
    exact absurd hpe (hno _ _)

/-- A declaring declaration is never skipped, and a candidate made from it
bears the declared name. -/
theorem declares_candidateOf (pe : String → Except Error Expr) (d : Decl) (n : String)
    (h : declares pe d n) :
    candidateOf pe d ≠ .ok none ∧ ∀ c, candidateOf pe d = .ok (some c) → c.variantName = n := by
  obtain ⟨gd, docList, lastComment, first, token, more, namePos, rfl, hdoc, hlast, hf, hpe⟩ := h
  have hn := declares_annotatedName pe lastComment first token more namePos n hf hpe
  constructor
  · simp only [candidateOf, hdoc, hlast, hn]
    rcases importsLoop pe docList [] with e | imports
    · simp
    · rcases interfaceOf gd with e | ⟨p, it⟩ <;> simp
  · intro c hc
    obtain ⟨gd', docList', lastComment', hd, hdoc', hlast', hn', _, _⟩ :=
      candidateOf_some_inv pe _ c hc
    cases hd
    rw [hdoc] at hdoc'; cases hdoc'
    rw [hlast] at hlast'; cases hlast'
    rw [hn] at hn'
    simpa using hn'.symm

theorem declStep_ok_some (fl : Flags) (pe : String → Except Error Expr) (pkg : String)
    (names : List String) (d : Decl) (n : String) (v : variant) :
    declStep toTitle fl pe pkg names d = .ok (some (n, v)) ↔
      ∃ c, candidateOf pe d = .ok (some c) ∧ c.variantName = n ∧ n ∉ names ∧
        variantFromInterface toTitle fl c.interfaceType n pkg c.imports = .ok v := by
  unfold declStep
  rcases hc : candidateOf pe d with e | (_ | c)
  · simp
  · simp
  · by_cases hm : c.variantName ∈ names
    · simp only [hm, if_true]
      constructor
      · intro h; cases h
      · rintro ⟨c', hc', rfl, hn, _⟩
        cases hc'
        exact absurd hm hn
    · simp only [hm, if_false]
      rcases hv : variantFromInterface toTitle fl c.interfaceType c.variantName pkg c.imports with e | v'
      · constructor
        · intro h; cases h
        · rintro ⟨c', hc', rfl, _, h⟩
          cases hc'
          rw [hv] at h; cases h
      · constructor
        · intro h
          cases h
          exact ⟨c, rfl, rfl, hm, hv⟩
        · rintro ⟨c', hc', rfl, _, h⟩
          cases hc'
          rw [hv] at h
          cases h
          rfl

theorem declStep_ok_none (fl : Flags) (pe : String → Except Error Expr) (pkg : String)
    (names : List String) (d : Decl) :
    declStep toTitle fl pe pkg names d = .ok none ↔ candidateOf pe d = .ok none := by
  unfold declStep
  rcases hc : candidateOf pe d with e | (_ | c)
  · simp
  · simp
  · by_cases hm : c.variantName ∈ names
    · simp [hm]
    · simp only [hm, if_false]
      rcases variantFromInterface toTitle fl c.interfaceType c.variantName pkg c.imports with e | v' <;>
        simp

/-- What a successful run of the declaration loop returns. -/
theorem declLoop_ok (fl : Flags) (pe : String → Except Error Expr) (pkg : String)
    (decls : List Decl) :
    ∀ (names : List String) (vs0 vs : List variant),
      declLoop toTitle fl pe pkg decls names vs0 = .ok vs →
        ∃ made : List variant, vs = vs0 ++ made ∧
          List.Forall₂ (produces toTitle fl pe pkg) (decls.filter fun d => !skipped pe d) made ∧
          (∀ v ∈ made, v.Name ∉ names) ∧ (made.map fun v => v.Name).Nodup ∧
          ∀ d ∈ decls, ∀ n, declares pe d n → n ∈ made.map fun v => v.Name := by
  induction decls with
  | nil =>
    intro names vs0 vs h
    simp only [declLoop, Except.ok.injEq] at h
    exact ⟨[], by simp [h], by simp, by simp, by simp, by simp⟩
  | cons d rest ih =>
    intro names vs0 vs h
    simp only [declLoop] at h
    rcases hs : declStep toTitle fl pe pkg names d with e | (_ | ⟨n, v⟩)
    · rw [hs] at h; cases h
    · rw [hs] at h
      have hc := (declStep_ok_none fl pe pkg names d).1 hs
      obtain ⟨made, h1, h2, h3, h4, h5⟩ := ih _ _ _ h
      refine ⟨made, h1, ?_, h3, h4, ?_⟩
      · simpa [List.filter_cons, skipped, hc] using h2
      · intro d' hd' m hm
        rcases List.mem_cons.1 hd' with rfl | hd'
        · exact absurd hc (declares_candidateOf pe _ m hm).1
        · exact h5 d' hd' m hm
    · rw [hs] at h
      obtain ⟨c, hc, hcn, hnot, hv⟩ := (declStep_ok_some fl pe pkg names d n v).1 hs
      have hvn : v.Name = n := (variantFromInterface_ok _ _ _ _ _ _ hv).2.2.2.2.2.2.1
      obtain ⟨made, h1, h2, h3, h4, h5⟩ := ih _ _ _ h
      refine ⟨v :: made, by simp [h1], ?_, ?_, ?_, ?_⟩
      · have : (d :: rest).filter (fun d => !skipped pe d)
            = d :: rest.filter (fun d => !skipped pe d) := by
          simp [List.filter_cons, skipped, hc]
        rw [this]
        exact List.Forall₂.cons ⟨c, hc, by rw [hcn]; exact hv⟩ h2
      · intro w hw
        rcases List.mem_cons.1 hw with rfl | hw
        · rw [hvn]; exact hnot
        · exact fun hin => h3 w hw (List.mem_cons_of_mem _ hin)
      · simp only [List.map_cons, List.nodup_cons]
        refine ⟨?_, h4⟩
        intro hin
        obtain ⟨w, hw, hwn⟩ := List.mem_map.1 hin
        apply h3 w hw
        rw [hwn, hvn]
        exact List.mem_cons_self _ _
      · intro d' hd' m hm
        rcases List.mem_cons.1 hd' with rfl | hd'
        · have := (declares_candidateOf pe _ m hm).2 c hc
          simp only [List.map_cons, List.mem_cons]
          left; rw [hvn, ← hcn, this]
        · exact List.mem_cons_of_mem _ (h5 d' hd' m hm)

/-- A name seen before the loop starts is declared by no declaration of a
list the loop gets through. -/
theorem declLoop_ok_fresh (fl : Flags) (pe : String → Except Error Expr) (pkg : String)
    (decls : List Decl) (names : List String) (vs0 vs : List variant)
    (h : declLoop toTitle fl pe pkg decls names vs0 = .ok vs) (d : Decl) (hd : d ∈ decls) (n : String)
    (hn : declares pe d n) : n ∉ names := by
  obtain ⟨made, _, _, h3, _, h5⟩ := declLoop_ok fl pe pkg decls names vs0 vs h
  obtain ⟨w, hw, hwn⟩ := List.mem_map.1 (h5 d hd n hn)
  rw [← hwn]
  exact h3 w hw

/-- Two declarations of one list declaring one name stop the loop. -/
theorem declLoop_duplicate (fl : Flags) (pe : String → Except Error Expr) (pkg : String)
    (before : List Decl) :
    ∀ (between after : List Decl) (d1 d2 : Decl) (n : String) (names : List String)
      (vs0 vs : List variant), declares pe d1 n → declares pe d2 n →
      declLoop toTitle fl pe pkg (before ++ d1 :: (between ++ d2 :: after)) names vs0 ≠ .ok vs := by
  induction before with
  | nil =>
    intro between after d1 d2 n names vs0 vs h1 h2 h
    simp only [List.nil_append, declLoop] at h
    rcases hs : declStep toTitle fl pe pkg names d1 with e | (_ | ⟨m, v⟩)
    · rw [hs] at h; cases h
    · exact (declares_candidateOf pe d1 n h1).1 ((declStep_ok_none fl pe pkg names d1).1 hs)
    · rw [hs] at h
      obtain ⟨c, hc, hcn, _, _⟩ := (declStep_ok_some fl pe pkg names d1 m v).1 hs
      have hm : m = n := by rw [← hcn]; exact (declares_candidateOf pe d1 n h1).2 c hc
      have := declLoop_ok_fresh fl pe pkg _ _ _ _ h d2 (by simp) n h2
      exact this (by rw [hm]; exact List.mem_cons_self _ _)
  | cons a before ih =>
    intro between after d1 d2 n names vs0 vs h1 h2 h
    simp only [List.cons_append, declLoop] at h
    rcases hs : declStep toTitle fl pe pkg names a with e | (_ | ⟨m, v⟩)
    · rw [hs] at h; cases h
    · rw [hs] at h; exact ih _ _ _ _ _ _ _ _ h1 h2 h
    · rw [hs] at h; exact ih _ _ _ _ _ _ _ _ h1 h2 h

theorem methodLoop_error_parse (pre : List Field) :
    ∀ (suf : List Field) (cs : List constructor) (e : Error),
      (∀ f ∈ pre, f.type.isFuncType = true → f.names ≠ []) →
      methodLoop pre.length (pre ++ suf) cs = .error e → ∃ m pos, e = .parse m pos := by
  induction pre using List.reverseRecOn with
  | nil =>
    intro suf cs e _ h
    simp [methodLoop] at h
  | append_singleton pre f ih =>
    intro suf cs e hwf h
    rw [List.length_append, List.length_singleton, List.append_assoc, List.singleton_append,
      methodLoop_snoc] at h
    have hpre : ∀ g ∈ pre, g.type.isFuncType = true → g.names ≠ [] :=
      fun g hg => hwf g (List.mem_append_left _ hg)
    rcases hc : isConstructor f with e' | b
    · rw [hc] at h
      obtain ⟨m, pos, hm⟩ := isConstructor_error_parse f e' hc
      exact ⟨m, pos, by rw [← Except.error.inj h, hm]⟩
    · rw [hc] at h
      cases b
      · exact ih _ _ _ hpre h
      · obtain ⟨pos, params, ht, _⟩ := isConstructor_true_imp f hc
        have hnames := hwf f (by simp) (by rw [ht]; rfl)
        rcases hk : constructorOf f with e' | c
        · exfalso
          unfold constructorOf at hk
          rcases hn : f.names with _ | ⟨n, rest⟩
          · exact hnames hn
          · rw [hn, ht] at hk; cases hk
        · rw [hk] at h
          exact ih _ _ _ hpre h

theorem variantFromInterface_error_parse (fl : Flags) (it : InterfaceType) (name pkg : String)
    (imports : List String) (e : Error)
    (hwf : ∀ f ∈ it.methods.list, f.names.length ≤ 1 ∧ (f.type.isFuncType = true → f.names ≠ []))
    (h : variantFromInterface toTitle fl it name pkg imports = .error e) :
    ∃ m pos, e = .parse m pos := by
  have hlen : it.methods.NumFields = it.methods.list.length :=
    (NumFields_eq_length_iff _).2 fun f hf => (hwf f hf).1
  unfold variantFromInterface at h
  rw [hlen] at h
  rcases hl : methodLoop it.methods.list.length it.methods.list [] with e' | ⟨ms, cs⟩
  · rw [hl] at h
    have hl' : methodLoop it.methods.list.length (it.methods.list ++ []) [] = .error e' := by
      simpa using hl
    obtain ⟨m, pos, hm⟩ := methodLoop_error_parse _ _ _ _ (fun f hf => (hwf f hf).2) hl'
    exact ⟨m, pos, by rw [← Except.error.inj h, hm]⟩
  · rw [hl] at h
    by_cases hz : cs.length = 0
    · simp only [hz, if_true] at h
      exact ⟨_, _, (Except.error.inj h).symm⟩
    · simp [hz] at h

theorem candidateOf_error_parse (pe : String → Except Error Expr) (d : Decl) (e : Error)
    (hwf : wellFormedDecl d) (h : candidateOf pe d = .error e) : ∃ m pos, e = .parse m pos := by
  unfold candidateOf at h
  split at h
  · cases h
  · rename_i gd
    obtain ⟨hdoc, hspecs, _⟩ := hwf gd rfl
    split at h
    · cases h
    · rename_i docList hd
      split at h
      · rename_i hlast
        exfalso
        rw [List.getLast?_eq_none_iff] at hlast
        exact hdoc (by rw [hd, hlast])
      · split at h
        · rename_i e' he
          obtain ⟨m, pos, hm⟩ := annotatedName_error_parse pe _ e' he
          exact ⟨m, pos, by rw [← Except.error.inj h, hm]⟩
        · cases h
        · split at h
          · rename_i e' he
            obtain ⟨m, pos, hm⟩ := importsLoop_error_parse pe _ _ e' he
            exact ⟨m, pos, by rw [← Except.error.inj h, hm]⟩
          · split at h
            · rename_i e' he
              obtain ⟨m, pos, hm⟩ := interfaceOf_error_parse gd e' hspecs he
              exact ⟨m, pos, by rw [← Except.error.inj h, hm]⟩
            · cases h

theorem declStep_error_parse (fl : Flags) (pe : String → Except Error Expr) (pkg : String)
    (names : List String) (d : Decl) (e : Error) (hwf : wellFormedDecl d)
    (h : declStep toTitle fl pe pkg names d = .error e) : ∃ m pos, e = .parse m pos := by
  unfold declStep at h
  rcases hc : candidateOf pe d with e' | (_ | c)
  · rw [hc] at h
    obtain ⟨m, pos, hm⟩ := candidateOf_error_parse pe d e' hwf hc
    exact ⟨m, pos, by rw [← Except.error.inj h, hm]⟩
  · rw [hc] at h; cases h
  · rw [hc] at h
    simp only at h
    split_ifs at h
    · exact ⟨_, _, (Except.error.inj h).symm⟩
    · split at h
      · rename_i e' he
        obtain ⟨gd, docList, lastComment, hd, _, _, _, _, hit⟩ := candidateOf_some_inv pe d c hc
        obtain ⟨name, rest, _, _, hsp, _, _⟩ := interfaceOf_ok gd _ _ hit
        obtain ⟨_, _, hm⟩ := hwf gd hd
        obtain ⟨m, pos, hm'⟩ := variantFromInterface_error_parse fl _ _ _ _ e'
          (hm name _ _ rest hsp) he
        exact ⟨m, pos, by rw [← Except.error.inj h, hm']⟩
      · cases h

theorem declLoop_error_parse (fl : Flags) (pe : String → Except Error Expr) (pkg : String)
    (decls : List Decl) :
    ∀ (names : List String) (vs0 : List variant) (e : Error),
      (∀ d ∈ decls, wellFormedDecl d) →
      declLoop toTitle fl pe pkg decls names vs0 = .error e → ∃ m pos, e = .parse m pos := by
  induction decls with
  | nil => intro names vs0 e _ h; simp [declLoop] at h
  | cons d rest ih =>
    intro names vs0 e hwf h
    simp only [declLoop] at h
    have hrest : ∀ d ∈ rest, wellFormedDecl d := fun x hx => hwf x (List.mem_cons_of_mem _ hx)
    rcases hs : declStep toTitle fl pe pkg names d with e' | (_ | ⟨n, v⟩)
    · rw [hs] at h
      obtain ⟨m, pos, hm⟩ := declStep_error_parse fl pe pkg names d e'
        (hwf d (List.mem_cons_self _ _)) hs
      exact ⟨m, pos, by rw [← Except.error.inj h, hm]⟩
    · rw [hs] at h; exact ih _ _ _ hrest h
    · rw [hs] at h; exact ih _ _ _ hrest h

/-- The names seen matter to a step only through the duplicate test. -/
theorem declStep_of_empty (fl : Flags) (pe : String → Except Error Expr) (pkg : String)
    (names : List String) (d : Decl) (r : Option (String × variant))
    (h : declStep toTitle fl pe pkg [] d = .ok r) (hfresh : ∀ n, declares pe d n → n ∉ names) :
    declStep toTitle fl pe pkg names d = .ok r := by
  unfold declStep at h ⊢
  rcases hc : candidateOf pe d with e' | (_ | c)
  · rw [hc] at h; cases h
  · rw [hc] at h; exact h
  · rw [hc] at h
    have := hfresh _ (candidateOf_some_declares pe d c hc)
    simp only [List.not_mem_nil, if_false] at h
    simp only [this, if_false]
    exact h

/-- Declarations that succeed one by one and declare distinct names succeed
together. -/
theorem declLoop_independent (fl : Flags) (pe : String → Except Error Expr) (pkg : String)
    (decls : List Decl) :
    ∀ (names : List String) (vs0 : List variant),
      (∀ d ∈ decls, ∃ r, declStep toTitle fl pe pkg [] d = .ok r) →
      decls.Pairwise (fun d1 d2 => ∀ n, declares pe d1 n → ¬declares pe d2 n) →
      (∀ d ∈ decls, ∀ n, declares pe d n → n ∉ names) →
      ∃ vs, declLoop toTitle fl pe pkg decls names vs0 = .ok vs := by
  induction decls with
  | nil => intro names vs0 _ _ _; exact ⟨vs0, rfl⟩
  | cons d rest ih =>
    intro names vs0 hall hpw hfresh
    obtain ⟨r, hr⟩ := hall d (List.mem_cons_self _ _)
    have hstep := declStep_of_empty fl pe pkg names d r hr (hfresh d (List.mem_cons_self _ _))
    have hrest : ∀ x ∈ rest, ∃ r, declStep toTitle fl pe pkg [] x = .ok r :=
      fun x hx => hall x (List.mem_cons_of_mem _ hx)
    obtain ⟨hd1, hpw'⟩ := List.pairwise_cons.1 hpw
    simp only [declLoop, hstep]
    rcases r with _ | ⟨n, v⟩
    · exact ih _ _ hrest hpw' fun x hx => hfresh x (List.mem_cons_of_mem _ hx)
    · apply ih _ _ hrest hpw'
      intro x hx m hm hin
      rcases List.mem_cons.1 hin with rfl | hin
      · obtain ⟨c, hc, hcn, _, _⟩ := (declStep_ok_some fl pe pkg names d m v).1 hstep
        have hdm : declares pe d m := by rw [← hcn]; exact candidateOf_some_declares pe d c hc
        exact hd1 x hx m hdm hm
      · exact hfresh x (List.mem_cons_of_mem _ hx) m hm hin

theorem forall₂_exists_left {α β : Type} {R : α → β → Prop} {l : List α} {m : List β}
    (h : List.Forall₂ R l m) (b : β) (hb : b ∈ m) : ∃ a ∈ l, R a b := by
  induction h with
  | nil => simp at hb
  | cons hab _ ih =>
    rcases List.mem_cons.1 hb with rfl | hb
    · exact ⟨_, List.mem_cons_self _ _, hab⟩
    · obtain ⟨a, ha, hr⟩ := ih hb
      exact ⟨a, List.mem_cons_of_mem _ ha, hr⟩

theorem foldl_append_eq (l : List String) (b : String) :
    List.foldl (fun r s => r ++ s) b l = b ++ List.foldl (fun r s => r ++ s) "" l := by
  induction l generalizing b with
  | nil => simp
  | cons a l ih =>
    simp only [List.foldl_cons]
    rw [ih (b ++ a), ih ("" ++ a), String.empty_append, String.append_assoc]

theorem join_cons (a : String) (l : List String) :
    String.join (a :: l) = a ++ String.join l := by
  simp only [String.join, List.foldl_cons]
  rw [foldl_append_eq, String.empty_append]

theorem filter_lengths (l : List Field)
    (h : ∀ f ∈ l, isConstructor f = .ok true ∨ isConstructor f = .ok false) :
    (l.filter fun f => decide (isConstructor f = .ok true)).length +
      (l.filter fun f => decide (isConstructor f = .ok false)).length = l.length := by
  induction l with
  | nil => simp
  | cons f l ih =>
    have ih' := ih fun g hg => h g (List.mem_cons_of_mem _ hg)
    rcases h f (List.mem_cons_self _ _) with hf | hf <;>
      simp [List.filter_cons, hf] <;> omega

theorem methodLoop_all_false (pre : List Field) :
    ∀ (suf : List Field) (cs : List constructor),
      (∀ f ∈ pre, isConstructor f = .ok false) →
      methodLoop pre.length (pre ++ suf) cs = .ok (pre.map clearComments ++ suf, cs) := by
  induction pre using List.reverseRecOn with
  | nil => intro suf cs _; simp [methodLoop]
  | append_singleton pre f ih =>
    intro suf cs h
    rw [List.length_append, List.length_singleton, List.append_assoc, List.singleton_append,
      methodLoop_snoc, h f (by simp)]
    simp only
    rw [ih _ _ fun g hg => h g (List.mem_append_left _ hg)]
    simp

/-- The parameters of a constructor made from an accepted member whose
identifiers are not empty. -/
theorem constructor_parameters_named (f : Field) (c : constructor)
    (hk : constructorOf f = .ok c)
    (hne : paramNamesNonEmpty f) :
    c.Parameters ≠ [] → (∀ p ∈ c.Parameters, p.Name ≠ "") ∨
      ∃ T, c.Parameters = [{ Name := "", Typ := T }] := by
  intro _
  obtain ⟨n, rest, pos, params, results, _, ht, rfl⟩ := (constructorOf_ok_iff f c).1 hk
  simp only [parametersFromFuncType]
  by_cases hun : ∃ g ∈ params.list, g.names = []
  · right
    exact parametersLoop_unnamed _ _ hun
  · left
    push_neg at hun
    rw [parametersLoop_named _ _ hun]
    intro p hp
    simp only [List.nil_append, List.mem_map] at hp
    obtain ⟨g, hg, rfl⟩ := hp
    rcases hn : g.names with _ | ⟨id, more⟩
    · exact absurd hn (hun g hg)
    · simp only [firstName, hn]
      exact hne pos params results ht g hg id (by rw [hn]; exact List.mem_cons_self _ _)

theorem variant_wellFormed (fl : Flags) (it : InterfaceType) (name pkg : String)
    (imports : List String) (v : variant)
    (h : variantFromInterface toTitle fl it name pkg imports = .ok v)
    (hne : ∀ f ∈ it.methods.list, paramNamesNonEmpty f) :
    v.Constructors ≠ [] ∧
    (∀ c ∈ v.Constructors, 1 < c.Parameters.length → ∀ p ∈ c.Parameters, p.Name ≠ "") ∧
    (∀ c ∈ v.Constructors, ∀ p ∈ c.Parameters, p.Name = "" → c.Parameters = [p]) := by
  obtain ⟨_, _, hfa, hnil, _⟩ := variantFromInterface_ok fl it name pkg imports v h
  have key : ∀ c ∈ v.Constructors, c.Parameters ≠ [] →
      (∀ p ∈ c.Parameters, p.Name ≠ "") ∨ ∃ T, c.Parameters = [{ Name := "", Typ := T }] := by
    intro c hc
    obtain ⟨f, hf, hfc⟩ := forall₂_exists_left hfa c hc
    have hf' := List.mem_filter.1 hf
    exact constructor_parameters_named f c hfc (hne f hf'.1)
  refine ⟨hnil, ?_, ?_⟩
  · intro c hc hlen p hp
    have hne' : c.Parameters ≠ [] := by intro h0; rw [h0] at hlen; simp at hlen
    rcases key c hc hne' with hall | ⟨T, hT⟩
    · exact hall p hp
    · rw [hT] at hlen; simp at hlen
  · intro c hc p hp hpn
    have hne' : c.Parameters ≠ [] := by intro h0; rw [h0] at hp; simp at hp
    rcases key c hc hne' with hall | ⟨T, hT⟩
    · exact absurd hpn (hall p hp)
    · rw [hT] at hp ⊢
      simp only [List.mem_singleton] at hp
      rw [hp]

/-- Every variant of a file was made from one of its candidate declarations. -/
theorem declLoop_mem (fl : Flags) (pe : String → Except Error Expr) (pkg : String)
    (decls : List Decl) (vs : List variant) (h : declLoop toTitle fl pe pkg decls [] [] = .ok vs)
    (v : variant) (hv : v ∈ vs) : ∃ d ∈ decls, produces toTitle fl pe pkg d v := by
  obtain ⟨made, h1, h2, _⟩ := declLoop_ok fl pe pkg decls [] [] vs h
  simp only [List.nil_append] at h1
  subst h1
  obtain ⟨d, hd, hp⟩ := forall₂_exists_left h2 v hv
  exact ⟨d, (List.mem_filter.1 hd).1, hp⟩

theorem execRange_ok {α : Type} (body : α → Except Error String) (xs : List α)
    (outs : List String) (h : List.Forall₂ (fun x out => body x = .ok out) xs outs) :
    execRange body xs = .ok (String.join outs) := by
  induction h with
  | nil => rfl
  | cons hab _ ih => simp [execRange, hab, ih, join_cons]

theorem visitorFieldText_all (gofmt : Expr → Except Error String) (cs : List constructor)
    (types : List String)
    (ht : List.Forall₂ (fun c t => c.UnpackTypes gofmt false = .ok t) cs types) :
    List.Forall₂ (fun c out => visitorFieldText toTitle gofmt c = .ok out) cs
      (List.zipWith (fun c t => "\n\t" ++ strings.Title toTitle c.Name ++ " func" ++ t) cs types) := by
  induction ht with
  | nil => exact List.Forall₂.nil
  | cons hab _ ih => exact List.Forall₂.cons (by simp [visitorFieldText, hab]) ih

/-- A documented declaration whose last documentation line has fewer than two
tokens is not skipped: the step fails with `missing variant name`. -/
theorem declStep_short_line (flags : Flags) (pe : String → Except Error Expr) (pkg : String)
    (names : List String) (gd : GenDecl) (docList : CommentGroup) (lastComment : Comment)
    (hdoc : gd.doc = some docList) (hlast : docList.getLast? = some lastComment)
    (hlen : (strings.Fields lastComment.text).length < 2) :
    declStep toTitle flags pe pkg names (Decl.genDecl gd) =
      .error (parseError "missing variant name" lastComment.slash) := by
  have hn : annotatedName pe lastComment =
      .error (parseError "missing variant name" lastComment.slash) := by
    rcases annotatedName_cases pe lastComment with ⟨_, h⟩ | ⟨_, _, _, hf, _, _⟩ | ⟨_, hf, _⟩ |
      ⟨_, _, _, hf, _⟩
    · exact h
    · rw [hf] at hlen; simp only [List.length_cons] at hlen; omega
    · rw [hf] at hlen; simp at hlen
    · rw [hf] at hlen; simp only [List.length_cons] at hlen; omega
  simp [declStep, candidateOf, hdoc, hlast, hn]

/-- A documented declaration whose last documentation line has a second token
other than `@variant` is skipped. -/
theorem declStep_other_marker (flags : Flags) (pe : String → Except Error Expr) (pkg : String)
    (names : List String) (gd : GenDecl) (docList : CommentGroup) (lastComment : Comment)
    (first second : String) (more : List String)
    (hdoc : gd.doc = some docList) (hlast : docList.getLast? = some lastComment)
    (hf : strings.Fields lastComment.text = first :: second :: more)
    (hs : second ≠ "@variant") :
    declStep toTitle flags pe pkg names (Decl.genDecl gd) = .ok none := by
  have hn : annotatedName pe lastComment = .ok none := by
    rcases annotatedName_cases pe lastComment with ⟨hl, _⟩ | ⟨_, _, _, _, _, h⟩ | ⟨_, hf', _⟩ |
      ⟨_, _, _, hf', _⟩
    · rw [hf] at hl; simp only [List.length_cons] at hl; omega
    · exact h
    · rw [hf] at hf'; simp at hf'; exact absurd hf'.2.1 hs
    · rw [hf] at hf'; simp at hf'; exact absurd hf'.2.1 hs
  simp [declStep, candidateOf, hdoc, hlast, hn]

theorem shapeDecl_declares : declares tokenExpr shapeDecl "Shape" :=
  ⟨_, _, _, "//", "Shape", [], 0, rfl, rfl, rfl, by decide, rfl⟩

theorem shapeDecl_wellFormed : wellFormedDecl shapeDecl := by
  intro gd hgd
  cases hgd
  refine ⟨by simp, fun _ _ => by simp, ?_⟩
  intro name pos methods rest hsp f hf
  simp only [List.cons.injEq, Spec.typeSpec.injEq, Expr.interfaceType.injEq] at hsp
  obtain ⟨⟨_, _, rfl⟩, _⟩ := hsp
  simp only [shapeInterface, FieldList.list, List.mem_cons, List.mem_singleton,
    List.mem_nil_iff, or_false] at hf
  rcases hf with rfl | rfl | rfl | rfl <;>
    exact ⟨by decide, fun _ => by
      simp [Field.names, squareField, rectangleField, circleField, stringField]⟩

theorem annotatedMethod_first (field : Field) (h : annotatedMethod field) :
    ∃ c rest, field.comment = some (c :: rest) ∧ hasMethodAnnotation field = some c := by
  obtain ⟨c, rest, hc, first, more, hf⟩ := h
  refine ⟨c, rest, hc, ?_⟩
  have : secondTokenIs c.text "@method" = true := (secondTokenIs_iff _ _).2 ⟨first, more, hf⟩
  simp [ hasMethodAnnotation, hc, this]

/-- The parameter fields of an accepted signature: at most one name each, one
name each when there are several fields. -/
theorem accepted_params (field : Field) (pos : Pos) (params : FieldList)
    (results : Option FieldList) (hacc : isConstructor field = .ok true)
    (ht : field.type = Expr.funcType pos params results) :
    (∀ f ∈ params.list, f.names.length ≤ 1) ∧
    (2 ≤ params.list.length → ∀ f ∈ params.list, f.names.length = 1) := by
  obtain ⟨pos', params', ht', hall⟩ := isConstructor_true_imp field hacc
  rw [ht] at ht'
  cases ht'
  have hcond := fun f hf => (checkParam_ok_iff _ f).1 (hall f hf)
  have hge := length_le_NumFields params
  constructor
  · intro f hf
    by_cases hnum : params.NumFields > 1
    · exact le_of_eq ((hcond f hf).2.2 hnum)
    · have hone : params.NumFields = params.list.length := by
        have : 1 ≤ params.list.length := List.length_pos_of_mem hf
        omega
      exact (NumFields_eq_length_iff params).1 hone f hf
  · intro h2 f hf
    exact (hcond f hf).2.2 (by omega)

theorem checkParam_error_message (n : Nat) (p : Field) (e : Error)
    (h : checkParam n p = .error e) :
    ∀ pos, e ≠ parseError "must have at least one constructor" pos := by
  intro pos heq
  unfold checkParam at h
  split_ifs at h <;> rw [heq] at h <;> simp [parseError] at h

theorem checkParams_error_message (n : Nat) (ps : List Field) (e : Error)
    (h : checkParams n ps = .error e) :
    ∀ pos, e ≠ parseError "must have at least one constructor" pos := by
  induction ps with
  | nil => simp [checkParams] at h
  | cons p ps ih =>
    simp only [checkParams] at h
    cases hp : checkParam n p with
    | error e' =>
      rw [hp] at h
      cases h
      exact checkParam_error_message n p _ hp
    | ok u => rw [hp] at h; exact ih h

theorem isConstructor_error_message (f : Field) (e : Error)
    (h : isConstructor f = .error e) :
    ∀ pos, e ≠ parseError "must have at least one constructor" pos := by
  intro pos heq
  unfold isConstructor at h
  split at h
  · split at h
    · cases h
    · rw [heq] at h
      simp [parseError] at h
  · split at h
    · split at h
      · rw [heq] at h
        simp [parseError] at h
      · split at h
        · rename_i e' he
          cases h
          exact checkParams_error_message _ _ _ he pos heq
        · cases h
    · cases h

/-- An error of the member loop is a panic or the error of a member below
which every member is valid. -/
theorem methodLoop_error_source (pre : List Field) :
    ∀ (suf : List Field) (cs : List constructor) (e : Error),
      methodLoop pre.length (pre ++ suf) cs = .error e →
        (∃ reason, e = .panic reason) ∨
        ∃ before f after, pre = before ++ f :: after ∧ isConstructor f = .error e ∧
          ∀ g ∈ after, ∃ b, isConstructor g = .ok b := by
  induction pre using List.reverseRecOn with
  | nil => intro suf cs e h; simp [methodLoop] at h
  | append_singleton pre f ih =>
    intro suf cs e h
    rw [List.length_append, List.length_singleton, List.append_assoc, List.singleton_append,
      methodLoop_snoc] at h
    have lift : ((∃ reason, e = .panic reason) ∨
        ∃ before f' after, pre = before ++ f' :: after ∧ isConstructor f' = .error e ∧
          ∀ g ∈ after, ∃ b, isConstructor g = .ok b) → ∀ b, isConstructor f = .ok b →
        ((∃ reason, e = .panic reason) ∨
        ∃ before f' after, pre ++ [f] = before ++ f' :: after ∧ isConstructor f' = .error e ∧
          ∀ g ∈ after, ∃ b, isConstructor g = .ok b) := by
      intro hih b hb
      rcases hih with hp | ⟨before, f', after, hpre, hf', hafter⟩
      · exact Or.inl hp
      · refine Or.inr ⟨before, f', after ++ [f], by rw [hpre]; simp, hf', ?_⟩
        intro g hg
        rcases List.mem_append.1 hg with hg | hg
        · exact hafter g hg
        · rw [List.mem_singleton.1 hg]; exact ⟨b, hb⟩
    rcases hc : isConstructor f with e' | b
    · rw [hc] at h
      cases h
      exact Or.inr ⟨pre, f, [], rfl, hc, by simp⟩
    · rw [hc] at h
      cases b
      · exact lift (ih _ _ _ h) false hc
      · rcases hk : constructorOf f with e' | c
        · rw [hk] at h
          cases h
          left
          unfold constructorOf at hk
          split at hk
          · exact ⟨_, (Except.error.inj hk).symm⟩
          · split at hk
            · cases hk
            · exact ⟨_, (Except.error.inj hk).symm⟩
        · rw [hk] at h
          exact lift (ih _ _ _ h) true hc

/-- The loop returns the error of the last invalid member. -/
theorem methodLoop_last_invalid (after : List Field) :
    ∀ (before suf : List Field) (f : Field) (cs : List constructor) (e : Error),
      isConstructor f = .error e →
      (∀ g ∈ after, ∃ b, isConstructor g = .ok b) →
      (∀ g ∈ after, g.type.isFuncType = true → g.names ≠ []) →
      methodLoop (before ++ f :: after).length ((before ++ f :: after) ++ suf) cs = .error e := by
  induction after using List.reverseRecOn with
  | nil =>
    intro before suf f cs e hf _ _
    rw [List.length_append, List.length_singleton, List.append_assoc, List.singleton_append,
      methodLoop_snoc, hf]
  | append_singleton after g ih =>
    intro before suf f cs e hf hvalid hwf
    have hvalid' : ∀ x ∈ after, ∃ b, isConstructor x = .ok b :=
      fun x hx => hvalid x (List.mem_append_left _ hx)
    have hwf' : ∀ x ∈ after, x.type.isFuncType = true → x.names ≠ [] :=
      fun x hx => hwf x (List.mem_append_left _ hx)
    have hlist : before ++ f :: (after ++ [g]) = (before ++ f :: after) ++ [g] := by simp
    rw [hlist, List.length_append, List.length_singleton, List.append_assoc,
      List.singleton_append, methodLoop_snoc]
    obtain ⟨b, hb⟩ := hvalid g (by simp)
    rw [hb]
    cases b
    · exact ih before _ f cs e hf hvalid' hwf'
    · obtain ⟨pos, params, ht, _⟩ := isConstructor_true_imp g hb
      have hnames := hwf g (by simp) (by rw [ht]; rfl)
      rcases hn : g.names with _ | ⟨n, more⟩
      · exact absurd hn hnames
      · have hk : constructorOf g =
            .ok { Name := n.name, Parameters := parametersFromFuncType ⟨pos, params, none⟩ } := by
          simp [constructorOf, hn, ht]
        rw [hk]
        exact ih before _ f _ e hf hvalid' hwf'

theorem methodLoopTraced_fst (n : Nat) :
    ∀ (methods : List Field) (cs : List constructor),
      (methodLoopTraced n methods cs).1 = methodLoop n methods cs := by
  induction n with
  | zero => intro methods cs; rfl
  | succ i ih =>
    intro methods cs
    simp only [methodLoopTraced, methodLoop]
    rcases methods[i]? with _ | field
    · rfl
    · simp only
      rcases isConstructor field with e | b
      · rfl
      · cases b
        · exact ih _ _
        · simp only
          rcases constructorOf field with e | c
          · rfl
          · exact ih _ _

theorem methodLoopTraced_snoc (pre suf : List Field) (f : Field) (cs : List constructor) :
    (methodLoopTraced (pre.length + 1) (pre ++ f :: suf) cs).2 =
      (pre.length, some f) ::
        match isConstructor f with
        | .error _ => []
        | .ok true =>
          match constructorOf f with
          | .error _ => []
          | .ok c => (methodLoopTraced pre.length (pre ++ suf) (cs ++ [c])).2
        | .ok false => (methodLoopTraced pre.length (pre ++ clearComments f :: suf) cs).2 := by
  have h1 : (pre ++ f :: suf)[pre.length]? = some f := by
    rw [List.getElem?_append_right (le_refl _)]; simp
  have h2 : (pre ++ f :: suf).take pre.length ++ (pre ++ f :: suf).drop (pre.length + 1)
      = pre ++ suf := by
    simp [List.take_append_eq_append_take, List.drop_append_eq_append_drop]
  have h3 : (pre ++ f :: suf).set pre.length (clearComments f)
      = pre ++ clearComments f :: suf := by
    rw [List.set_append_right _ _ (le_refl _)]; simp
  rw [methodLoopTraced]
  simp only [h1, h2, h3]
  rcases isConstructor f with e | b
  · rfl
  · cases b
    · rfl
    · simp only
      rcases constructorOf f with e | c <;> rfl

theorem allReads_snoc (pre : List Field) (f : Field) :
    allReads (pre ++ [f]) = (pre.length, some f) :: allReads pre := by
  simp only [allReads, List.length_append, List.length_singleton, List.range_succ,
    List.reverse_append, List.reverse_singleton, List.singleton_append, List.map_cons]
  congr 1
  · simp
  · apply List.map_congr_left
    intro i hi
    have hlt : i < pre.length := by simpa using hi
    rw [List.getElem?_append_left hlt]

/-- The reads of the loop are an initial part of `allReads`, all of it when
the loop runs to its end. -/
theorem methodLoopTraced_reads (pre : List Field) :
    ∀ (suf : List Field) (cs : List constructor),
      (methodLoopTraced pre.length (pre ++ suf) cs).2 <+: allReads pre ∧
      (∀ r, (methodLoopTraced pre.length (pre ++ suf) cs).1 = .ok r →
        (methodLoopTraced pre.length (pre ++ suf) cs).2 = allReads pre) := by
  induction pre using List.reverseRecOn with
  | nil =>
    intro suf cs
    simp [methodLoopTraced, allReads]
  | append_singleton pre f ih =>
    intro suf cs
    have hfst := methodLoopTraced_fst (pre ++ [f]).length ((pre ++ [f]) ++ suf) cs
    rw [hfst]
    rw [List.length_append, List.length_singleton, List.append_assoc, List.singleton_append,
      methodLoopTraced_snoc, methodLoop_snoc, allReads_snoc]
    rcases hc : isConstructor f with e | b
    · simp only
      exact ⟨by simp [List.prefix_cons_iff], by intro r h; cases h⟩
    · cases b
      · simp only
        obtain ⟨h1, h2⟩ := ih (clearComments f :: suf) cs
        rw [methodLoopTraced_fst] at h2
        refine ⟨(List.cons_prefix_cons).2 ⟨rfl, h1⟩, ?_⟩
        intro r hr
        rw [h2 r hr]
      · simp only
        rcases hk : constructorOf f with e | c
        · simp only
          exact ⟨by simp [List.prefix_cons_iff], by intro r h; cases h⟩
        · simp only
          obtain ⟨h1, h2⟩ := ih suf (cs ++ [c])
          rw [methodLoopTraced_fst] at h2
          refine ⟨(List.cons_prefix_cons).2 ⟨rfl, h1⟩, ?_⟩
          intro r hr
          rw [h2 r hr]

theorem allReads_mem (original : List Field) (entry : Nat × Option Field)
    (h : entry ∈ allReads original) :
    entry.1 < original.length ∧ ∃ f, entry.2 = some f ∧ original[entry.1]? = some f := by
  simp only [allReads, List.mem_map, List.mem_reverse, List.mem_range] at h
  obtain ⟨i, hi, rfl⟩ := h
  exact ⟨hi, original[i], by simp [List.getElem?_eq_getElem hi],
    by simp [List.getElem?_eq_getElem hi]⟩

/-- Running the loop over a list that starts with declarations it gets
through: the rest is met with the names of the variants made. -/
theorem declLoop_append (fl : Flags) (pe : String → Except Error Expr) (pkg : String)
    (before : List Decl) :
    ∀ (rest : List Decl) (names : List String) (vs0 vs1 : List variant),
      declLoop toTitle fl pe pkg before names vs0 = .ok vs1 →
      declLoop toTitle fl pe pkg (before ++ rest) names vs0 =
        declLoop toTitle fl pe pkg rest
          (((vs1.drop vs0.length).map fun v => v.Name).reverse ++ names) vs1 := by
  induction before with
  | nil =>
    intro rest names vs0 vs1 h
    simp only [declLoop, Except.ok.injEq] at h
    subst h
    simp
  | cons d before ih =>
    intro rest names vs0 vs1 h
    rw [List.cons_append]
    simp only [declLoop] at h ⊢
    rcases hs : declStep toTitle fl pe pkg names d with e | (_ | ⟨n, v⟩)
    · rw [hs] at h; cases h
    · rw [hs] at h
      simp only at h ⊢
      exact ih _ _ _ _ h
    · rw [hs] at h
      simp only at h ⊢
      rw [ih _ _ _ _ h]
      obtain ⟨c, _, hcn, _, hv⟩ := (declStep_ok_some fl pe pkg names d n v).1 hs
      have hvn : v.Name = n := (variantFromInterface_ok _ _ _ _ _ _ hv).2.2.2.2.2.2.1
      obtain ⟨made, hmade, _⟩ := declLoop_ok fl pe pkg before _ _ _ h
      rw [hmade]
      simp [hvn]

/-- The first failing declaration decides the result of the loop. -/
theorem declLoop_first_error (fl : Flags) (pe : String → Except Error Expr) (pkg : String)
    (before after : List Decl) (d : Decl) (vs1 : List variant) (e : Error)
    (hbefore : declLoop toTitle fl pe pkg before [] [] = .ok vs1)
    (hd : declStep toTitle fl pe pkg (vs1.map fun v => v.Name).reverse d = .error e) :
    declLoop toTitle fl pe pkg (before ++ d :: after) [] [] = .error e := by
  rw [declLoop_append fl pe pkg before _ _ _ _ hbefore]
  simp only [List.length_nil, List.drop_zero, List.append_nil, declLoop, hd]

/-- A failing loop failed at a declaration before which all went through. -/
theorem declLoop_error_split (fl : Flags) (pe : String → Except Error Expr) (pkg : String)
    (decls : List Decl) :
    ∀ (names : List String) (vs0 : List variant) (e : Error),
      declLoop toTitle fl pe pkg decls names vs0 = .error e →
      ∃ before d after vs1, decls = before ++ d :: after ∧
        declLoop toTitle fl pe pkg before names vs0 = .ok vs1 ∧
        declStep toTitle fl pe pkg (((vs1.drop vs0.length).map fun v => v.Name).reverse ++ names) d =
          .error e := by
  induction decls with
  | nil => intro names vs0 e h; simp [declLoop] at h
  | cons d rest ih =>
    intro names vs0 e h
    simp only [declLoop] at h
    rcases hs : declStep toTitle fl pe pkg names d with e' | (_ | ⟨n, v⟩)
    · rw [hs] at h
      cases h
      exact ⟨[], d, rest, vs0, rfl, rfl, by simpa using hs⟩
    · rw [hs] at h
      obtain ⟨before, d', after, vs1, hdecls, hb, hd⟩ := ih _ _ _ h
      refine ⟨d :: before, d', after, vs1, by rw [hdecls]; rfl, ?_, hd⟩
      simp only [declLoop, hs]
      exact hb
    · rw [hs] at h
      obtain ⟨before, d', after, vs1, hdecls, hb, hd⟩ := ih _ _ _ h
      refine ⟨d :: before, d', after, vs1, by rw [hdecls]; rfl, ?_, ?_⟩
      · simp only [declLoop, hs]
        exact hb
      · obtain ⟨c, _, hcn, _, hv⟩ := (declStep_ok_some fl pe pkg names d n v).1 hs
        have hvn : v.Name = n := (variantFromInterface_ok _ _ _ _ _ _ hv).2.2.2.2.2.2.1
        obtain ⟨made, hmade, _⟩ := declLoop_ok fl pe pkg before _ _ _ hb
        rw [hmade]
        rw [hmade] at hd
        simpa [hvn] using hd

/-- An error of `candidateOf` is the error of the step, whatever names were
seen. -/
theorem declStep_candidate_error (fl : Flags) (pe : String → Except Error Expr) (pkg : String)
    (names : List String) (d : Decl) (e : Error) (h : candidateOf pe d = .error e) :
    declStep toTitle fl pe pkg names d = .error e := by
  simp [declStep, h]

/-- A step that fails whatever names were seen fails the file, once the
declarations before it went through. -/
theorem variantsFromFile_step_error (fl : Flags) (pe : String → Except Error Expr)
    (file : File) (before after : List Decl) (d : Decl) (vs1 : List variant) (e : Error)
    (hdecls : file.decls = before ++ d :: after)
    (hbefore : declLoop toTitle fl pe file.name.name before [] [] = .ok vs1)
    (hd : ∀ names, declStep toTitle fl pe file.name.name names d = .error e) :
    variantsFromFile toTitle fl pe (.ok file) = .error e := by
  simp only [variantsFromFile, hdecls]
  exact declLoop_first_error fl pe _ before after d vs1 e hbefore (hd _)

theorem annotatedName_marker_only (pe : String → Except Error Expr) (c : Comment)
    (first : String) (hf : strings.Fields c.text = [first, "@variant"]) :
    annotatedName pe c = .error (parseError "missing variant name" c.slash) := by
  rcases annotatedName_cases pe c with ⟨_, h⟩ | ⟨_, s, _, hf', hs, _⟩ | ⟨_, _, h⟩ |
    ⟨_, _, _, hf', _⟩
  · exact h
  · rw [hf] at hf'
    simp only [List.cons.injEq] at hf'
    exact absurd hf'.2.1.symm hs
  · exact h
  · rw [hf] at hf'; simp at hf'

/-- The step of the import loop on a line, by the tokens of the line. -/
theorem importsLoop_cons (pe : String → Except Error Expr) (c : Comment) (rest : List Comment)
    (acc : List String) :
    importsLoop pe (c :: rest) acc =
      match strings.Fields c.text with
      | [_, second] =>
        if second = "@import" then
          .error (parseError "missing package name in @import" c.slash)
        else importsLoop pe rest acc
      | _ :: second :: token :: _ =>
        if second = "@import" then
          match pe token with
          | .ok (Expr.basicLit _ LitKind.STRING value) => importsLoop pe rest (acc ++ [value])
          | _ => .error (parseError "@import package name failed to parse as string" c.slash)
        else importsLoop pe rest acc
      | _ => importsLoop pe rest acc := by
  simp only [importsLoop]
  rcases hf : strings.Fields c.text with _ | ⟨a, _ | ⟨b, _ | ⟨t, l⟩⟩⟩
  · simp
  · simp
  · by_cases hb : b = "@import" <;> simp [hb]
  · by_cases hb : b = "@import"
    · subst hb
      simp only [List.length_cons, List.getElem?_cons_succ, List.getElem?_cons_zero, and_true,
        if_true]
      have h3 : ¬ (l.length + 1 + 1 + 1 = 2) := by omega
      have h4 : l.length + 1 + 1 + 1 ≥ 2 := by omega
      simp only [h3, if_false, h4]
      rcases pe t with e | x
      · rfl
      · cases x <;> first | rfl | (rename_i k v; cases k <;> rfl)
    · simp [hb]

theorem importsLoop_append (pe : String → Except Error Expr) (pre : List Comment) :
    ∀ (rest : List Comment) (acc acc' : List String),
      importsLoop pe pre acc = .ok acc' →
      importsLoop pe (pre ++ rest) acc = importsLoop pe rest acc' := by
  induction pre with
  | nil =>
    intro rest acc acc' h
    simp only [importsLoop, Except.ok.injEq] at h
    subst h
    rfl
  | cons c pre ih =>
    intro rest acc acc' h
    rw [List.cons_append, importsLoop_cons]
    rw [importsLoop_cons] at h
    rcases hf : strings.Fields c.text with _ | ⟨a, _ | ⟨b, _ | ⟨t, l⟩⟩⟩
    · rw [hf] at h; exact ih _ _ _ h
    · rw [hf] at h; exact ih _ _ _ h
    · rw [hf] at h
      simp only at h ⊢
      split_ifs at h ⊢
      exact ih _ _ _ h
    · rw [hf] at h
      simp only at h ⊢
      split_ifs at h ⊢ with hb
      · split at h
        · exact ih _ _ _ h
        · cases h
      · exact ih _ _ _ h

theorem importsLoop_ok_eq (pe : String → Except Error Expr) (cs : List Comment) :
    ∀ (acc r : List String), importsLoop pe cs acc = .ok r →
      r = acc ++ cs.filterMap (importValue pe) := by
  induction cs with
  | nil => intro acc r h; simp only [importsLoop, Except.ok.injEq] at h; simp [h]
  | cons c cs ih =>
    intro acc r h
    rw [importsLoop_cons] at h
    rcases hf : strings.Fields c.text with _ | ⟨a, _ | ⟨b, _ | ⟨t, l⟩⟩⟩
    · rw [hf] at h
      have := ih _ _ h
      simp [this, importValue, importToken, hf]
    · rw [hf] at h
      have := ih _ _ h
      simp [this, importValue, importToken, hf]
    · rw [hf] at h
      simp only at h
      split_ifs at h
      have := ih _ _ h
      simp [this, importValue, importToken, hf]
    · rw [hf] at h
      simp only at h
      split_ifs at h with hb
      · split at h
        · rename_i p value hpe
          have := ih _ _ h
          simp [this, importValue, importToken, hf, hb, hpe]
        · cases h
      · have := ih _ _ h
        simp [this, importValue, importToken, hf, hb]

/-- Where the literal a token parses as has the token as its text, the list of
imports collected is the list of the third tokens themselves. -/
theorem importsLoop_ok_tokens (pe : String → Except Error Expr) (cs : List Comment)
    (hlit : ∀ token pos value,
      pe token = .ok (Expr.basicLit pos LitKind.STRING value) → value = token) :
    ∀ (acc r : List String), importsLoop pe cs acc = .ok r →
      r = acc ++ cs.filterMap importToken := by
  induction cs with
  | nil => intro acc r h; simp only [importsLoop, Except.ok.injEq] at h; simp [h]
  | cons c cs ih =>
    intro acc r h
    rw [importsLoop_cons] at h
    rcases hf : strings.Fields c.text with _ | ⟨a, _ | ⟨b, _ | ⟨t, l⟩⟩⟩
    · rw [hf] at h
      have := ih _ _ h
      simp [this, importToken, hf]
    · rw [hf] at h
      have := ih _ _ h
      simp [this, importToken, hf]
    · rw [hf] at h
      simp only at h
      split_ifs at h
      have := ih _ _ h
      simp [this, importToken, hf]
    · rw [hf] at h
      simp only at h
      split_ifs at h with hb
      · split at h
        · rename_i p value hpe
          have := ih _ _ h
          simp [this, importToken, hf, hb, hlit t p value hpe]
        · cases h
      · have := ih _ _ h
        simp [this, importToken, hf, hb]

/-- The loop body on a declaring declaration, up to the import loop. -/
theorem candidateOf_declaring (pe : String → Except Error Expr) (gd : GenDecl)
    (docList : CommentGroup) (n : String) (hdoc : gd.doc = some docList)
    (hdecl : declares pe (Decl.genDecl gd) n) :
    candidateOf pe (Decl.genDecl gd) =
      match importsLoop pe docList [] with
      | .error e => .error e
      | .ok imports =>
        match interfaceOf gd with
        | .error e => .error e
        | .ok (typeSpecPos, interfaceType) =>
          .ok (some { variantName := n, imports := imports, typeSpecPos := typeSpecPos,
                      interfaceType := interfaceType }) := by
  obtain ⟨gd', docList', lastComment, first, token, more, namePos, hgd, hdoc', hlast, hf, hpe⟩ :=
    hdecl
  cases hgd
  rw [hdoc] at hdoc'
  cases hdoc'
  have hn := declares_annotatedName pe lastComment first token more namePos n hf hpe
  rcases hi : importsLoop pe docList [] with e | imports
  · simp [candidateOf, hdoc, hlast, hn, hi]
  · rcases hit : interfaceOf gd with e | ⟨p, it⟩ <;>
      simp [candidateOf, hdoc, hlast, hn, hi, hit]

theorem string_append_right_cancel (a b s : String) (h : a ++ s = b ++ s) : a = b := by
  have hd : (a ++ s).data = (b ++ s).data := by rw [h]
  simp only [String.data_append] at hd
  exact String.ext (List.append_cancel_right hd)

theorem string_append_left_cancel (a b s : String) (h : s ++ a = s ++ b) : a = b := by
  have hd : (s ++ a).data = (s ++ b).data := by rw [h]
  simp only [String.data_append] at hd
  exact String.ext (List.append_cancel_left hd)

theorem outputFileName_eq_iff (v w : variant) :
    outputFileName toLower v = outputFileName toLower w ↔
      strings.ToLower toLower v.Name = strings.ToLower toLower w.Name := by
  constructor
  · intro h; exact string_append_right_cancel _ _ _ h
  · intro h; simp [outputFileName, h]

theorem titleAux_no_separator (l : List Char) :
    ∀ prev : Char, strings.isSeparator prev = false →
      (∀ c ∈ l, strings.isSeparator c = false) → strings.titleAux toTitle prev l = l := by
  induction l with
  | nil => intro prev _ _; rfl
  | cons r rs ih =>
    intro prev hprev hall
    simp only [strings.titleAux, hprev]
    rw [ih r (hall r (List.mem_cons_self _ _)) fun c hc => hall c (List.mem_cons_of_mem _ hc)]
    simp

/-- The title form of a word without separator: its first rune in title case,
the rest unchanged. -/
theorem Title_word (x : Char) (xs : List Char)
    (h : ∀ c ∈ x :: xs, strings.isSeparator c = false) :
    strings.Title toTitle (String.mk (x :: xs)) = String.mk (toTitle x :: xs) := by
  have hsp : strings.isSeparator (Char.ofNat 32) = true := by decide
  simp only [strings.Title, strings.titleAux, hsp, if_true]
  rw [titleAux_no_separator xs x (h x (List.mem_cons_self _ _))
    fun c hc => h c (List.mem_cons_of_mem _ hc)]

/-- The text written by the template: the header comment, then a body on
which the command line has no bearing. -/
theorem executeTemplate_header (args : List String) (gofmt : Expr → Except Error String)
    (v : variant) (out : String) (h : executeTemplate toTitle args gofmt v = .ok out) :
    ∃ cmd body, command args = .ok cmd ∧ out = headerText cmd ++ body ∧
      ∀ args' cmd', command args' = .ok cmd' →
        executeTemplate toTitle args' gofmt v = .ok (headerText cmd' ++ body) := by
  unfold executeTemplate at h
  rcases hc : command args with e | cmd
  · rw [hc] at h; cases h
  · rw [hc] at h
    simp only at h
    rcases hm : gofmt (Expr.interfaceType v.Methods.interface v.Methods.methods) with e | methods
    · rw [hm] at h; cases h
    · rw [hm] at h
      simp only at h
      rcases hv : visitorStructText toTitle gofmt v with e | visitor
      · rw [hv] at h; cases h
      · rw [hv] at h
        simp only at h
        rcases ht : execRange (typeDeclText gofmt) v.Constructors with e | types
        · rw [ht] at h; cases h
        · rw [ht] at h
          simp only at h
          rcases hf : execRange (methodsText toTitle gofmt v) v.Constructors with e | funcs
          · rw [hf] at h; cases h
          · rw [hf] at h
            simp only [Except.ok.injEq] at h
            refine ⟨cmd, v.Package ++ "\n\nimport ("
              ++ String.join (v.Imports.map fun i => "  \n\t" ++ i)
              ++ "\n)\n\ntype " ++ v.Name ++ " " ++ methods ++ "\n"
              ++ visitor ++ types ++ funcs ++ checksText v, rfl, ?_, ?_⟩
            · rw [← h]
              simp only [headerText, String.append_assoc]
            · intro args' cmd' hc'
              simp only [executeTemplate, hc', hm, hv, ht, hf, headerText, String.append_assoc]

/-! # The claims -/

/-- C1: On success of `variantFromInterface` the constructors of the result
are the members for which `isConstructor` returns true, in their declaration
order, each with its method name and the `parametersFromFuncType` of its
signature. -/
theorem constructors_in_declaration_order (toTitle : Char → Char)
    (flags : Flags) (interfaceType : InterfaceType)
    (variantName packageName : String) (imports : List String) (result : variant)
    (h : variantFromInterface toTitle flags interfaceType variantName packageName imports = .ok result) :
    List.Forall₂
      (fun member c => ∃ n rest pos params results,
        member.names = n :: rest ∧ member.type = Expr.funcType pos params results ∧
        c.Name = n.name ∧ c.Parameters = parametersFromFuncType ⟨pos, params, results⟩)
      (interfaceType.methods.list.filter fun member => decide (isConstructor member = .ok true))
      result.Constructors := by
  obtain ⟨_, _, hfa, _⟩ := variantFromInterface_ok _ _ _ _ _ _ h
  refine List.Forall₂.imp ?_ hfa
  intro member c hk
  obtain ⟨n, rest, pos, params, results, hn, ht, rfl⟩ := (constructorOf_ok_iff member c).1 hk
  exact ⟨n, rest, pos, params, results, hn, ht, rfl, rfl⟩

theorem constructors_in_declaration_order_witness :
    variantFromInterface asciiToTitle allOn shapeInterface "Shape" "main" [] = .ok shapeVariant ∧
    List.Forall₂
      (fun member c => ∃ n rest pos params results,
        member.names = n :: rest ∧ member.type = Expr.funcType pos params results ∧
        c.Name = n.name ∧ c.Parameters = parametersFromFuncType ⟨pos, params, results⟩)
      (shapeInterface.methods.list.filter fun member => decide (isConstructor member = .ok true))
      shapeVariant.Constructors :=
  ⟨rfl, constructors_in_declaration_order asciiToTitle allOn shapeInterface "Shape" "main" [] shapeVariant rfl⟩

/-- C2: For a member not annotated with `@method`, `isConstructor` returns
true exactly when the member is a function signature without result list, no
parameter is variadic, no unnamed parameter has an interface or pointer type
and, when `NumFields` counts more than one parameter, every parameter field
has exactly one name; a signature with a result list is rejected with the
return-type error, and a member that is no signature gives false. -/
theorem isConstructor_unannotated (field : Field) (h : ¬annotatedMethod field) :
    (isConstructor field = .ok true ↔
      ∃ pos params, field.type = Expr.funcType pos params none ∧
        ∀ param ∈ params.list,
          param.type.isEllipsis = false ∧
          (param.names = [] →
            param.type.isInterfaceType = false ∧ param.type.isStarExpr = false) ∧
          (params.NumFields > 1 → param.names.length = 1)) ∧
    (∀ pos params results, field.type = Expr.funcType pos params (some results) →
      isConstructor field =
        .error (parseError "cannot have a return type on a constructor" results.Pos)) ∧
    (field.type.isFuncType = false → isConstructor field = .ok false) := by
  have hn := (hasMethodAnnotation_none_iff field).2 h
  refine ⟨isConstructor_true_iff field hn, ?_, ?_⟩
  · intro pos params results ht
    simp [isConstructor, hn, ht]
  · intro hf
    unfold isConstructor
    rw [hn]
    cases ht : field.type <;> simp_all [Expr.isFuncType]

theorem isConstructor_unannotated_witness :
    ¬annotatedMethod squareField ∧ isConstructor squareField = .ok true :=
  ⟨(hasMethodAnnotation_none_iff squareField).1 rfl,
   ((isConstructor_unannotated squareField
      ((hasMethodAnnotation_none_iff squareField).1 rfl)).1).2
     ⟨17, FieldList.mk 17 [Field.mk none [⟨18, "length"⟩] float64 none] 32, rfl, by
        simp [FieldList.list, FieldList.NumFields, Field.type, Field.names, float64,
          Expr.isEllipsis]⟩⟩

/-- C6: After a successful `variantFromInterface` the method list of the
interface holds the members for which `isConstructor` returned false, in
their order, each with its own names and its own type and with documentation
and comment set to nil (line 142); then one method named `Visit` whose single
parameter has the type `<Name>Visitor`, exactly when the visitor is enabled,
which is when `result.Visitor` holds; then, last, one method without
parameters named `is` followed by `strings.Title` of the variant name.  Every
other member has become a constructor. -/
theorem residual_methods (toTitle : Char → Char) (flags : Flags) (interfaceType : InterfaceType)
    (variantName packageName : String) (imports : List String) (result : variant)
    (h : variantFromInterface toTitle flags interfaceType variantName packageName imports = .ok result) :
    result.Methods.methods.list =
      (interfaceType.methods.list.filter fun member =>
          decide (isConstructor member = .ok false)).map
          (fun member =>
            match member with
            | Field.mk _ names type _ => Field.mk none names type none)
        ++ (if result.Visitor then
              [Field.mk none [⟨0, "Visit"⟩]
                (Expr.funcType 0
                  (FieldList.mk 0
                    [Field.mk none [] (Expr.ident 0 (variantName ++ "Visitor")) none] 0)
                  (some (FieldList.mk 0 [] 0))) none]
            else [])
        ++ [Field.mk none [⟨0, "is" ++ strings.Title toTitle variantName⟩]
              (Expr.funcType 0 (FieldList.mk 0 [] 0) (some (FieldList.mk 0 [] 0))) none] ∧
    result.Visitor = !flags.noVisitor ∧
    result.Methods.methods.list.length + result.Constructors.length =
      interfaceType.methods.list.length + (if result.Visitor then 2 else 1) := by
  obtain ⟨_, hall, hfa, _, hm, _, _, _, _, _, _, hv⟩ := variantFromInterface_ok _ _ _ _ _ _ h
  have hclear : clearComments = fun member =>
      match member with
      | Field.mk _ names type _ => Field.mk none names type none := by
    funext member
    cases member
    rfl
  refine ⟨?_, hv, ?_⟩
  · rw [hm, hclear]
    rfl
  · have hlen := filter_lengths _ hall
    have hc := hfa.length_eq
    rw [hm]
    cases result.Visitor <;> simp <;> omega

theorem residual_methods_witness :
    variantFromInterface asciiToTitle allOn shapeInterface "Shape" "main" [] = .ok shapeVariant ∧
    shapeVariant.Methods.methods.list =
      [Field.mk none [⟨120, "String"⟩]
         (Expr.funcType 126 (FieldList.mk 126 [] 127)
           (some (FieldList.mk 0 [Field.mk none [] (Expr.ident 129 "string") none] 0))) none,
       Field.mk none [⟨0, "Visit"⟩]
         (Expr.funcType 0
           (FieldList.mk 0 [Field.mk none [] (Expr.ident 0 "ShapeVisitor") none] 0)
           (some (FieldList.mk 0 [] 0))) none,
       Field.mk none [⟨0, "isShape"⟩]
         (Expr.funcType 0 (FieldList.mk 0 [] 0) (some (FieldList.mk 0 [] 0))) none] :=
  ⟨rfl,
   (residual_methods asciiToTitle allOn shapeInterface "Shape" "main" [] shapeVariant rfl).1.trans
     rfl⟩

/-- C3: `c.Type()` is the empty struct type for a constructor without
parameters, the type of the parameter itself for a single parameter without
name, and else a struct type with one field per parameter, in order, named
after the parameter and of the parameter's type. -/
theorem constructor_Typ_shape (c : constructor) :
    (c.Parameters = [] → c.Typ = Expr.structType 0 (FieldList.mk 0 [] 0)) ∧
    (∀ p, c.Parameters = [p] → p.Name = "" → c.Typ = p.Typ) ∧
    (c.Parameters ≠ [] → (∀ p, c.Parameters = [p] → p.Name ≠ "") →
      c.Typ = Expr.structType 0 (FieldList.mk 0
        (c.Parameters.map fun p =>
          Field.mk none [{ namePos := 0, name := p.Name }] p.Typ none) 0)) := by
  refine ⟨?_, ?_, ?_⟩
  · intro h; simp [constructor.Typ, h]
  · intro p h hn; simp [constructor.Typ, h, hn]
  · intro hne hnamed
    unfold constructor.Typ
    rcases hp : c.Parameters with _ | ⟨p, _ | ⟨q, l⟩⟩
    · exact absurd hp hne
    · simp [hnamed p hp, structFieldsLoop_eq]
    · simp [structFieldsLoop_eq]

theorem constructor_Typ_shape_witness :
    wrapConstructor.Typ = float64 ∧
    rectangleConstructor.Typ = Expr.structType 0 (FieldList.mk 0
      [Field.mk none [⟨0, "length"⟩] float64 none, Field.mk none [⟨0, "width"⟩] float64 none] 0) :=
  ⟨(constructor_Typ_shape wrapConstructor).2.1 ⟨"", float64⟩ rfl rfl,
   (constructor_Typ_shape rectangleConstructor).2.2 (by simp [rectangleConstructor])
     (by simp [rectangleConstructor])⟩

/-- C4: The accessor of a constructor, of return type `UnpackTypes(true)` and
return expression `UnpackValues()`, `t` being the text `gofmt` gives for a
type `T`: nothing and nothing without parameters; `t` and `(t)(rcv)` for one
parameter without name; `t` and `rcv.p` for one parameter named `p`; and for
two or more parameters the list of all types in parentheses, followed by a
blank, and the list of all `rcv.p`, both joined by `, ` in parameter order. -/
theorem accessor_shape (gofmt : Expr → Except Error String) (c : constructor) :
    (c.Parameters = [] → c.UnpackTypes gofmt true = .ok "" ∧ c.UnpackValues gofmt = .ok "") ∧
    (∀ T t, c.Parameters = [{ Name := "", Typ := T }] → gofmt T = .ok t →
      c.UnpackTypes gofmt true = .ok t ∧ c.UnpackValues gofmt = .ok ("(" ++ t ++ ")(rcv)")) ∧
    (∀ p T t, p ≠ "" → c.Parameters = [{ Name := p, Typ := T }] → gofmt T = .ok t →
      c.UnpackTypes gofmt true = .ok t ∧ c.UnpackValues gofmt = .ok ("rcv." ++ p)) ∧
    (∀ ts, 2 ≤ c.Parameters.length →
      List.Forall₂ (fun p t => gofmt p.Typ = .ok t) c.Parameters ts →
      c.UnpackTypes gofmt true = .ok ("(" ++ strings.Join ts ", " ++ ") ") ∧
      c.UnpackValues gofmt =
        .ok (strings.Join (c.Parameters.map fun p => "rcv." ++ p.Name) ", ")) := by
  refine ⟨?_, ?_, ?_, ?_⟩
  · intro h; simp [constructor.UnpackTypes, constructor.UnpackValues, h]
  · intro T t h ht
    simp [constructor.UnpackTypes, constructor.UnpackValues, h, ht, paramTypesLoop]
  · intro p T t hp h ht
    simp [constructor.UnpackTypes, constructor.UnpackValues, h, ht, hp, paramTypesLoop]
  · intro ts hlen hts
    have h1 := paramTypesLoop_eq gofmt c.Parameters ts [] hts
    constructor
    · unfold constructor.UnpackTypes
      rw [h1]
      have : ¬ c.Parameters.length = 0 := by omega
      have h2 : ¬ c.Parameters.length = 1 := by omega
      simp [this, h2]
    · unfold constructor.UnpackValues
      rcases hp : c.Parameters with _ | ⟨p, _ | ⟨q, l⟩⟩
      · simp [hp] at hlen
      · simp [hp] at hlen
      · simp [valuesLoop_eq]

theorem accessor_shape_witness :
    (wrapConstructor.UnpackTypes identFmt true = .ok "float64" ∧
      wrapConstructor.UnpackValues identFmt = .ok "(float64)(rcv)") ∧
    (rectangleConstructor.UnpackTypes identFmt true = .ok "(float64, float64) " ∧
      rectangleConstructor.UnpackValues identFmt = .ok "rcv.length, rcv.width") :=
  ⟨(accessor_shape identFmt wrapConstructor).2.1 float64 "float64" rfl rfl,
   (accessor_shape identFmt rectangleConstructor).2.2.2 ["float64", "float64"] (by decide)
     (List.Forall₂.cons rfl (List.Forall₂.cons rfl List.Forall₂.nil))⟩

/-- C5, as stated, fails: the interface `{ foo(); Foo() }` is accepted, both
constructors get the visitor field `Foo`, and the `Visit` method of `foo`
invokes `v.Foo`, the field of the constructor `Foo` as well. -/
theorem visit_field_shared :
    variantFromInterface asciiToTitle allOn fooInterface "T" "main" [] = .ok fooVariant ∧
    visitorStructText asciiToTitle identFmt fooVariant =
      .ok " \ntype TVisitor struct \x7b\n\tFoo func()\n\tFoo func()\n\x7d \n" ∧
    visitMethodText asciiToTitle identFmt fooVariant ⟨"foo", []⟩ =
      .ok "func (rcv foo) Visit(v TVisitor) \x7b v.Foo() \x7d \n" ∧
    visitMethodText asciiToTitle identFmt fooVariant ⟨"Foo", []⟩ =
      .ok "func (rcv Foo) Visit(v TVisitor) \x7b v.Foo() \x7d \n" :=
  ⟨rfl, rfl, rfl, rfl⟩

/-- C5, amended: with the visitor enabled, the visitor struct of a variant
with any number of constructors has one field line per constructor, in order,
named `strings.Title` of the constructor name and of type `func` followed by
`UnpackTypes(false)` (`()` without parameters); the `Visit` method of a
constructor invokes the field named `strings.Title` of its own name on its
own `UnpackValues`; and where the titled names are pairwise distinct that
field is the field of no other constructor. -/
theorem visitor_dispatch (toTitle : Char → Char) (gofmt : Expr → Except Error String) (v : variant)
    (types : List String) (hv : v.Visitor = true)
    (ht : List.Forall₂ (fun c t => c.UnpackTypes gofmt false = .ok t) v.Constructors types) :
    visitorStructText toTitle gofmt v =
      .ok (" \ntype " ++ v.Name ++ "Visitor struct \x7b"
        ++ String.join (List.zipWith
            (fun c t => "\n\t" ++ strings.Title toTitle c.Name ++ " func" ++ t) v.Constructors types)
        ++ "\n\x7d \n") ∧
    (List.zipWith (fun c t => "\n\t" ++ strings.Title toTitle c.Name ++ " func" ++ t)
      v.Constructors types).length = v.Constructors.length ∧
    (∀ c : constructor, c.Parameters = [] → c.UnpackTypes gofmt false = .ok "()") ∧
    (∀ c ∈ v.Constructors, ∀ values, c.UnpackValues gofmt = .ok values →
      visitMethodText toTitle gofmt v c =
        .ok ("func (rcv " ++ c.Name ++ ") Visit(v " ++ v.Name ++ "Visitor) \x7b v."
          ++ strings.Title toTitle c.Name ++ "(" ++ values ++ ") \x7d \n")) ∧
    ((v.Constructors.map fun c => strings.Title toTitle c.Name).Nodup →
      ∀ i j (hi : i < v.Constructors.length) (hj : j < v.Constructors.length), i ≠ j →
        strings.Title toTitle (v.Constructors.get ⟨i, hi⟩).Name ≠
          strings.Title toTitle (v.Constructors.get ⟨j, hj⟩).Name) := by
  refine ⟨?_, ?_, ?_, ?_, ?_⟩
  · simp [visitorStructText, hv, execRange_ok _ _ _ (visitorFieldText_all gofmt _ _ ht)]
  · simp [List.length_zipWith, ht.length_eq]
  · intro c hc
    simp [constructor.UnpackTypes, hc]
  · intro c _ values hvals
    simp [visitMethodText, hv, hvals]
  · intro hnd i j hi hj hij heq
    have hinj := List.nodup_iff_injective_get.1 hnd
    have := @hinj ⟨i, by simpa using hi⟩ ⟨j, by simpa using hj⟩ (by simpa using heq)
    exact hij (by simpa using this)

theorem visitor_dispatch_witness :
    visitorStructText asciiToTitle identFmt shapeVariant =
      .ok (" \ntype ShapeVisitor struct \x7b\n\tSquare func(float64) "
        ++ "\n\tRectangle func(float64, float64) \n\tCircle func(float64) \n\x7d \n") ∧
    visitMethodText asciiToTitle identFmt shapeVariant rectangleConstructor =
      .ok ("func (rcv Rectangle) Visit(v ShapeVisitor) "
        ++ "\x7b v.Rectangle(rcv.length, rcv.width) \x7d \n") :=
  ⟨(visitor_dispatch asciiToTitle identFmt shapeVariant ["(float64) ", "(float64, float64) ", "(float64) "]
      rfl
      (List.Forall₂.cons rfl (List.Forall₂.cons rfl (List.Forall₂.cons rfl List.Forall₂.nil)))).1,
   (visitor_dispatch asciiToTitle identFmt shapeVariant ["(float64) ", "(float64, float64) ", "(float64) "]
      rfl
      (List.Forall₂.cons rfl (List.Forall₂.cons rfl (List.Forall₂.cons rfl
        List.Forall₂.nil)))).2.2.2.1 rectangleConstructor (by simp [shapeVariant,
          rectangleConstructor]) "rcv.length, rcv.width" rfl⟩

/-- C7: A variant returned by `variantFromInterface`, and so every variant
returned by `variantsFromFile`, is well formed where the identifiers of the
parameters are not empty: it has a constructor, a constructor with more than
one parameter has named parameters only, and an unnamed parameter is the sole
parameter of its constructor.  A method set whose members, of at most one name
each, are all classified as no constructor is rejected with the error `must
have at least one constructor`. -/
theorem variant_well_formed (toTitle : Char → Char)
    (flags : Flags) (parseExpr : String → Except Error Expr) :
    (∀ interfaceType variantName packageName imports result,
      variantFromInterface toTitle flags interfaceType variantName packageName imports = .ok result →
      (∀ member ∈ interfaceType.methods.list, paramNamesNonEmpty member) →
      wellFormedVariant result) ∧
    (∀ (file : File) variants,
      variantsFromFile toTitle flags parseExpr (.ok file) = .ok variants →
      (∀ gd, Decl.genDecl gd ∈ file.decls → ∀ name pos methods rest,
        gd.specs = Spec.typeSpec name (Expr.interfaceType pos methods) :: rest →
        ∀ member ∈ methods.list, paramNamesNonEmpty member) →
      ∀ v ∈ variants, wellFormedVariant v) ∧
    (∀ (interfaceType : InterfaceType) variantName packageName imports,
      (∀ member ∈ interfaceType.methods.list, member.names.length ≤ 1) →
      (∀ member ∈ interfaceType.methods.list, isConstructor member = .ok false) →
      variantFromInterface toTitle flags interfaceType variantName packageName imports =
        .error (parseError "must have at least one constructor" interfaceType.interface)) := by
  refine ⟨?_, ?_, ?_⟩
  · intro it name pkg imports result h hne
    exact variant_wellFormed flags it name pkg imports result h hne
  · intro file variants h hne v hv
    obtain ⟨d, hd, c, hc, hvc⟩ := declLoop_mem flags parseExpr _ _ _ h v hv
    obtain ⟨gd, docList, lastComment, hdg, _, _, _, _, hit⟩ := candidateOf_some_inv _ d c hc
    obtain ⟨name, rest, _, _, hsp, _, _⟩ := interfaceOf_ok gd _ _ hit
    subst hdg
    exact variant_wellFormed flags _ _ _ _ v hvc (hne gd hd name _ _ rest hsp)
  · intro it name pkg imports hnames hall
    have hlen := (NumFields_eq_length_iff it.methods).2 hnames
    have hl := methodLoop_all_false it.methods.list [] [] hall
    simp only [List.append_nil] at hl
    simp [variantFromInterface, hlen, hl]

theorem variant_well_formed_witness :
    wellFormedVariant shapeVariant ∧
    variantFromInterface asciiToTitle allOn
        { interface := 5, methods := FieldList.mk 15 [stringField] 30 } "Shape" "main" [] =
      .error (parseError "must have at least one constructor" 5) :=
  ⟨(variant_well_formed asciiToTitle allOn tokenExpr).1 shapeInterface "Shape" "main" [] shapeVariant rfl
      (by
        intro member hm pos params results ht q hq id hid
        simp only [shapeInterface, FieldList.list, List.mem_cons, List.mem_singleton,
          List.mem_nil_iff, or_false] at hm
        rcases hm with rfl | rfl | rfl | rfl <;> cases ht <;>
          simp [FieldList.list] at hq <;> (try rcases hq with rfl | rfl) <;>
          simp [Field.names] at hid <;> subst hid <;> decide),
   (variant_well_formed asciiToTitle allOn tokenExpr).2.2
      { interface := 5, methods := FieldList.mk 15 [stringField] 30 } "Shape" "main" []
      (by simp [FieldList.list, stringField, Field.names])
      (by simp [FieldList.list]; rfl)⟩

/-- C8, as stated, fails: `Foo(*int, int)` has two unnamed parameters and is
rejected with the unnamed-pointer error, not with the error for multiple
unnamed parameters. -/
theorem two_unnamed_pointer_first :
    ¬annotatedMethod pointerIntField ∧
    (∃ pos opening a b closing,
      pointerIntField.type = Expr.funcType pos (FieldList.mk opening [a, b] closing) none ∧
      a.names = [] ∧ b.names = []) ∧
    isConstructor pointerIntField =
      .error (parseError "cannot have an unnamed pointer type in constructor" 5) ∧
    ∀ pos, isConstructor pointerIntField ≠
      .error (parseError "cannot have multiple unnamed parameters in a constructor" pos) :=
  ⟨(hasMethodAnnotation_none_iff pointerIntField).1 rfl,
   ⟨4, 4, _, _, 14, rfl, rfl, rfl⟩, rfl, fun pos h => by
    have h' : isConstructor pointerIntField =
        .error (parseError "cannot have an unnamed pointer type in constructor" 5) := rfl
    rw [h'] at h
    simp [parseError] at h⟩

/-- C8, amended: an un-annotated signature without results whose parameter
list is two unnamed parameters is rejected by `isConstructor` at its first
parameter: with the variadic error when that parameter is variadic, with the
unnamed-interface or unnamed-pointer error when its type is an interface or a
pointer type, and with the error `cannot have multiple unnamed parameters in a
constructor` otherwise; so a declaration with such a member yields no
variant. -/
theorem two_unnamed_rejected (toTitle : Char → Char)
    (field : Field) (pos opening closing : Pos) (a b : Field)
    (hann : ¬annotatedMethod field)
    (ht : field.type = Expr.funcType pos (FieldList.mk opening [a, b] closing) none)
    (ha : a.names = []) (hb : b.names = []) :
    (a.type.isEllipsis = true →
      isConstructor field = .error (parseError "cannot have variadic constructor" a.Pos)) ∧
    (a.type.isInterfaceType = true →
      isConstructor field =
        .error (parseError "cannot have an unnamed interface type in constructor" a.Pos)) ∧
    (a.type.isStarExpr = true →
      isConstructor field =
        .error (parseError "cannot have an unnamed pointer type in constructor" a.Pos)) ∧
    (a.type.isEllipsis = false → a.type.isInterfaceType = false → a.type.isStarExpr = false →
      isConstructor field =
        .error (parseError "cannot have multiple unnamed parameters in a constructor" a.Pos)) ∧
    (∀ flags interfaceType variantName packageName imports result,
      field ∈ interfaceType.methods.list →
      variantFromInterface toTitle flags interfaceType variantName packageName imports ≠ .ok result) := by
  have hn := (hasMethodAnnotation_none_iff field).2 hann
  have hnum : (FieldList.mk opening [a, b] closing).NumFields = 2 := by
    simp [FieldList.NumFields, FieldList.list, ha, hb]
  have hstep : isConstructor field =
      match checkParam 2 a with
      | .error e => .error e
      | .ok _ => match checkParam 2 b with
        | .error e => .error e
        | .ok _ => .ok true := by
    simp only [isConstructor, hn, ht, hnum, FieldList.list, checkParams]
    rcases checkParam 2 a with e | u
    · rfl
    · rcases checkParam 2 b with e | u <;> rfl
  have herr : ∃ e, isConstructor field = .error e := by
    rw [hstep]
    unfold checkParam
    simp only [ha, List.length_nil]
    split_ifs <;> first | exact ⟨_, rfl⟩ | simp_all
  refine ⟨?_, ?_, ?_, ?_, ?_⟩
  · intro h1
    rw [hstep]; simp [checkParam, h1]
  · intro h1
    have h0 : a.type.isEllipsis = false := by
      cases hx : a.type <;> simp_all [Expr.isEllipsis, Expr.isInterfaceType]
    rw [hstep]; simp [checkParam, h0, h1, ha]
  · intro h1
    have h0 : a.type.isEllipsis = false := by
      cases hx : a.type <;> simp_all [Expr.isEllipsis, Expr.isStarExpr]
    have h2 : a.type.isInterfaceType = false := by
      cases hx : a.type <;> simp_all [Expr.isInterfaceType, Expr.isStarExpr]
    rw [hstep]; simp [checkParam, h0, h1, h2, ha]
  · intro h0 h1 h2
    rw [hstep]; simp [checkParam, h0, h1, h2, ha]
  · intro flags it name pkg imports result hmem h
    obtain ⟨e, he⟩ := herr
    obtain ⟨_, hall, _⟩ := variantFromInterface_ok _ _ _ _ _ _ h
    rcases hall field hmem with h' | h' <;> rw [he] at h' <;> cases h'

theorem two_unnamed_rejected_witness :
    ¬annotatedMethod intStringField ∧
    isConstructor intStringField =
      .error (parseError "cannot have multiple unnamed parameters in a constructor" 5) :=
  ⟨(hasMethodAnnotation_none_iff intStringField).1 rfl,
   (two_unnamed_rejected asciiToTitle intStringField 4 4 16 (Field.mk none [] (Expr.ident 5 "int") none)
      (Field.mk none [] (Expr.ident 10 "string") none)
      ((hasMethodAnnotation_none_iff intStringField).1 rfl) rfl rfl rfl).2.2.2.1 rfl rfl rfl⟩

/-- C9, at the failing input: the declaration `//nolint` / `var debug = false`
carries no `@variant` annotation, its last documentation line having a single
token; `variantsFromFile` does not skip it but fails with the error `missing
variant name` at the comment. -/
theorem single_token_doc_rejected (toTitle : Char → Char)
    (flags : Flags) (parseExpr : String → Except Error Expr) :
    variantsFromFile toTitle flags parseExpr (.ok nolintFile) =
      .error (parseError "missing variant name" 14) := by
  rfl

/-- C10: When `variantsFromFile` succeeds the names of the variants are
pairwise distinct and the variants are those made from the declarations not
skipped, in declaration order.  When two declarations of the file declare the
same variant name no variant list is returned; on a file shaped as `go/parser`
builds it the call returns an error.  Every call starts from an empty set of
names: declarations that succeed one by one and declare distinct names within
the file succeed together, whatever other files declare. -/
theorem variant_names_distinct (toTitle : Char → Char)
    (flags : Flags) (parseExpr : String → Except Error Expr)
    (file : File) :
    (∀ variants, variantsFromFile toTitle flags parseExpr (.ok file) = .ok variants →
      (variants.map fun v => v.Name).Nodup ∧
      List.Forall₂ (produces toTitle flags parseExpr file.name.name)
        (file.decls.filter fun d => !skipped parseExpr d) variants) ∧
    (∀ before between after d1 d2 n,
      file.decls = before ++ d1 :: (between ++ d2 :: after) →
      declares parseExpr d1 n → declares parseExpr d2 n →
      (∀ variants, variantsFromFile toTitle flags parseExpr (.ok file) ≠ .ok variants) ∧
      ((∀ d ∈ file.decls, wellFormedDecl d) →
        ∃ message position,
          variantsFromFile toTitle flags parseExpr (.ok file) = .error (.parse message position))) ∧
    variantsFromFile toTitle flags parseExpr (.ok file) =
      declLoop toTitle flags parseExpr file.name.name file.decls [] [] ∧
    ((∀ d ∈ file.decls, ∃ r, declStep toTitle flags parseExpr file.name.name [] d = .ok r) →
      file.decls.Pairwise (fun d1 d2 => ∀ n, declares parseExpr d1 n → ¬declares parseExpr d2 n) →
      ∃ variants, variantsFromFile toTitle flags parseExpr (.ok file) = .ok variants) := by
  refine ⟨?_, ?_, rfl, ?_⟩
  · intro variants h
    obtain ⟨made, h1, h2, _, h4, _⟩ := declLoop_ok flags parseExpr _ _ _ _ _ h
    simp only [List.nil_append] at h1
    subst h1
    exact ⟨h4, h2⟩
  · intro before between after d1 d2 n hdecls h1 h2
    have hno : ∀ variants, variantsFromFile toTitle flags parseExpr (.ok file) ≠ .ok variants := by
      intro variants
      simp only [variantsFromFile, hdecls]
      exact declLoop_duplicate flags parseExpr _ before between after d1 d2 n [] [] variants h1 h2
    refine ⟨hno, ?_⟩
    intro hwf
    rcases hr : variantsFromFile toTitle flags parseExpr (.ok file) with e | vs
    · obtain ⟨m, pos, hm⟩ := declLoop_error_parse flags parseExpr _ _ _ _ e hwf hr
      exact ⟨m, pos, by rw [hm]⟩
    · exact absurd hr (hno vs)
  · intro hall hpw
    exact declLoop_independent flags parseExpr _ _ [] [] hall hpw (by simp)

theorem variant_names_distinct_witness :
    (variantsFromFile asciiToTitle allOn tokenExpr (.ok shapeFile) = .ok [shapeVariant] ∧
      ([shapeVariant].map fun v => v.Name).Nodup) ∧
    (declares tokenExpr shapeDecl "Shape" ∧
      ∃ message position,
        variantsFromFile asciiToTitle allOn tokenExpr (.ok twiceFile) = .error (.parse message position)) ∧
    ∃ variants, variantsFromFile asciiToTitle allOn tokenExpr (.ok shapeFile) = .ok variants :=
  ⟨⟨rfl, ((variant_names_distinct asciiToTitle allOn tokenExpr shapeFile).1 [shapeVariant] rfl).1⟩,
   ⟨shapeDecl_declares,
    ((variant_names_distinct asciiToTitle allOn tokenExpr twiceFile).2.1 [] [Decl.other] [] shapeDecl
      shapeDecl "Shape" rfl shapeDecl_declares shapeDecl_declares).2 (by
        intro d hd
        simp only [twiceFile, List.mem_cons, List.mem_singleton, List.mem_nil_iff, or_false] at hd
        rcases hd with rfl | rfl | rfl
        · exact shapeDecl_wellFormed
        · intro gd hgd; cases hgd
        · exact shapeDecl_wellFormed)⟩,
   (variant_names_distinct asciiToTitle allOn tokenExpr shapeFile).2.2.2 (by
      intro d hd
      simp only [shapeFile, List.mem_cons, List.mem_singleton, List.mem_nil_iff, or_false] at hd
      rcases hd with rfl | rfl | rfl
      · exact ⟨none, rfl⟩
      · exact ⟨some ("Shape", shapeVariant), rfl⟩
      · exact ⟨none, rfl⟩) (by
      have hother : ∀ n, ¬declares tokenExpr Decl.other n := by
        rintro n ⟨_, _, _, _, _, _, _, h, _⟩
        cases h
      simp only [shapeFile, List.pairwise_cons, List.mem_cons, List.mem_singleton,
        List.mem_nil_iff, or_false, List.Pairwise.nil, and_true]
      refine ⟨?_, ?_, ?_⟩
      · intro d _ n h; exact absurd h (hother n)
      · intro d hd n _
        rcases hd with rfl
        exact hother n
      · intro d hd; cases hd)⟩

/-- C11: For a member whose trailing comment has `@method` as second token,
`isConstructor` returns false without error when the member is a function
signature, whatever its results and parameters, and fails with the error
`cannot annotate interface with @method`, at that comment, when it is not. -/
theorem isConstructor_annotated (field : Field) (c : Comment) (rest : List Comment)
    (hc : field.comment = some (c :: rest)) (h : annotatedMethod field) :
    (field.type.isFuncType = true → isConstructor field = .ok false) ∧
    (field.type.isFuncType = false →
      isConstructor field =
        .error (parseError "cannot annotate interface with @method" c.slash)) := by
  obtain ⟨c', rest', hc', hann⟩ := annotatedMethod_first field h
  rw [hc] at hc'
  cases hc'
  constructor
  · intro hf
    unfold isConstructor
    rw [hann]
    cases ht : field.type <;> simp_all [Expr.isFuncType]
  · intro hf
    unfold isConstructor
    rw [hann]
    cases ht : field.type <;> simp_all [Expr.isFuncType]

theorem isConstructor_annotated_witness :
    (annotatedMethod stringField ∧ isConstructor stringField = .ok false) ∧
    (annotatedMethod embeddedAnnotatedField ∧
      isConstructor embeddedAnnotatedField =
        .error (parseError "cannot annotate interface with @method" 153)) :=
  ⟨⟨⟨_, _, rfl, "//", [], by decide⟩,
    (isConstructor_annotated stringField ⟨136, "// @method"⟩ [] rfl
      ⟨_, _, rfl, "//", [], by decide⟩).1 rfl⟩,
   ⟨⟨_, _, rfl, "//", [], by decide⟩,
    (isConstructor_annotated embeddedAnnotatedField ⟨153, "// @method"⟩ [] rfl
      ⟨_, _, rfl, "//", [], by decide⟩).2 rfl⟩⟩

/-- C18: For a signature accepted by `isConstructor`,
`parametersFromFuncType` returns one parameter per parameter field, in order,
with the name of the field (empty for a field without name) and its type: the
early return drops nothing.  The result is empty, or a single parameter
without name, or made of fields of exactly one name each. -/
theorem parameters_of_accepted (field : Field) (pos : Pos) (params : FieldList)
    (results : Option FieldList) (hacc : isConstructor field = .ok true)
    (ht : field.type = Expr.funcType pos params results) :
    parametersFromFuncType ⟨pos, params, results⟩ =
      params.list.map (fun f => { Name := firstName f, Typ := f.type }) ∧
    (∀ f ∈ params.list, f.names.length ≤ 1) ∧
    (parametersFromFuncType ⟨pos, params, results⟩ = [] ∨
      (∃ T, parametersFromFuncType ⟨pos, params, results⟩ = [{ Name := "", Typ := T }]) ∨
      (params.list ≠ [] ∧ ∀ f ∈ params.list, ∃ id, f.names = [id])) := by
  obtain ⟨hle, hmany⟩ := accepted_params field pos params results hacc ht
  have hmap : parametersFromFuncType ⟨pos, params, results⟩ =
      params.list.map (fun f => { Name := firstName f, Typ := f.type }) := by
    simp only [parametersFromFuncType]
    rcases hl : params.list with _ | ⟨f, _ | ⟨g, l⟩⟩
    · rfl
    · rcases hn : f.names with _ | ⟨n, more⟩
      · simp [parametersLoop, hn, firstName]
      · simp [parametersLoop, hn, firstName]
    · have hnamed : ∀ x ∈ f :: g :: l, x.names ≠ [] := by
        intro x hx hnil
        have := hmany (by rw [hl]; simp) x (by rw [hl]; exact hx)
        rw [hnil] at this
        simp at this
      rw [parametersLoop_named _ _ hnamed]
      simp
  refine ⟨hmap, hle, ?_⟩
  rw [hmap]
  rcases hl : params.list with _ | ⟨f, l⟩
  · left; rfl
  · by_cases hun : f.names = [] ∧ l = []
    · right; left
      obtain ⟨hn, rfl⟩ := hun
      exact ⟨f.type, by simp [firstName, hn]⟩
    · right; right
      refine ⟨by simp, ?_⟩
      intro x hx
      have hx' : x ∈ params.list := by rw [hl]; exact hx
      have hlen : x.names.length = 1 := by
        rcases l with _ | ⟨g, l'⟩
        · have hxf : x = f := by simpa using hx
          subst hxf
          have h1 := hle x hx'
          have h0 : x.names ≠ [] := fun h => hun ⟨h, rfl⟩
          have : 0 < x.names.length := List.length_pos.2 h0
          omega
        · exact hmany (by rw [hl]; simp) x hx'
      rcases hn : x.names with _ | ⟨id, _ | ⟨id2, more⟩⟩
      · rw [hn] at hlen; simp at hlen
      · exact ⟨id, rfl⟩
      · rw [hn] at hlen; simp at hlen

theorem parameters_of_accepted_witness :
    isConstructor rectangleField = .ok true ∧
    parametersFromFuncType
        ⟨49, FieldList.mk 49
          [Field.mk none [⟨50, "length"⟩] float64 none,
           Field.mk none [⟨66, "width"⟩] float64 none] 79, none⟩ =
      [⟨"length", float64⟩, ⟨"width", float64⟩] :=
  ⟨rfl, (parameters_of_accepted rectangleField 49 _ none rfl rfl).1⟩

/-- C19: Members are validated from the bottom upward: in a method set as
`go/parser` builds it, `variantFromInterface` returns the error that
`isConstructor` gives for the last invalid member, whatever stands above it;
and when the error `must have at least one constructor` is returned, no
member is invalid: each is classified as no constructor. -/
theorem last_invalid_member_error (toTitle : Char → Char)
    (flags : Flags) (interfaceType : InterfaceType)
    (variantName packageName : String) (imports : List String) :
    (∀ before member after e,
      interfaceType.methods.list = before ++ member :: after →
      (∀ m ∈ interfaceType.methods.list, m.names.length ≤ 1) →
      (∀ m ∈ after, m.type.isFuncType = true → m.names ≠ []) →
      isConstructor member = .error e →
      (∀ m ∈ after, ∃ b, isConstructor m = .ok b) →
      variantFromInterface toTitle flags interfaceType variantName packageName imports = .error e) ∧
    (∀ pos,
      variantFromInterface toTitle flags interfaceType variantName packageName imports =
        .error (parseError "must have at least one constructor" pos) →
      ∀ m ∈ interfaceType.methods.list, isConstructor m = .ok false) := by
  constructor
  · intro before member after e hlist hnames hwf hm hvalid
    have hlen := (NumFields_eq_length_iff interfaceType.methods).2 hnames
    have := methodLoop_last_invalid after before [] member [] e hm hvalid hwf
    rw [← hlist, List.append_nil] at this
    simp [variantFromInterface, hlen, this]
  · intro pos h
    by_cases hlen : interfaceType.methods.NumFields = interfaceType.methods.list.length
    · unfold variantFromInterface at h
      rw [hlen] at h
      rcases hl : methodLoop interfaceType.methods.list.length interfaceType.methods.list []
        with e | ⟨ms, cs⟩
      · rw [hl] at h
        cases h
        exfalso
        have hl' : methodLoop interfaceType.methods.list.length
            (interfaceType.methods.list ++ []) [] =
              .error (parseError "must have at least one constructor" pos) := by
          simpa using hl
        rcases methodLoop_error_source _ _ _ _ hl' with ⟨r, hr⟩ | ⟨_, f, _, _, hf, _⟩
        · cases hr
        · exact isConstructor_error_message f _ hf pos rfl
      · rw [hl] at h
        have hl' : methodLoop interfaceType.methods.list.length
            (interfaceType.methods.list ++ []) [] = .ok (ms, cs) := by simpa using hl
        obtain ⟨hall, _, made, hcs, hfa⟩ := methodLoop_ok _ _ _ _ _ hl'
        by_cases hz : cs.length = 0
        · have hmade : made = [] := by
            rw [List.length_eq_zero] at hz
            rw [hz] at hcs
            simpa using hcs.symm
          rw [hmade] at hfa
          have hnil := List.forall₂_nil_right_iff.1 hfa
          intro m hm
          rcases hall m hm with ht | hf
          · exfalso
            have : m ∈ interfaceType.methods.list.filter
                (fun f => decide (isConstructor f = .ok true)) :=
              List.mem_filter.2 ⟨hm, by simp [ht]⟩
            rw [hnil] at this
            simp at this
          · exact hf
        · simp [hz] at h
    · exfalso
      have hlt : interfaceType.methods.list.length < interfaceType.methods.NumFields :=
        lt_of_le_of_ne (length_le_NumFields _) (Ne.symm hlen)
      simp [variantFromInterface, methodLoop_overrun _ _ _ hlt, parseError] at h

theorem last_invalid_member_error_witness :
    isConstructor areaField =
      .error (parseError "cannot have a return type on a constructor" 167) ∧
    isConstructor scaleField = .error (parseError "cannot have variadic constructor" 186) ∧
    variantFromInterface asciiToTitle allOn twoInvalidInterface "Shape" "main" [] =
      .error (parseError "cannot have variadic constructor" 186) :=
  ⟨rfl, rfl,
   (last_invalid_member_error asciiToTitle allOn twoInvalidInterface "Shape" "main" []).1
      [areaField, squareField] scaleField [circleField] _ rfl
      (by simp [twoInvalidInterface, FieldList.list, areaField, squareField, scaleField,
            circleField, Field.names])
      (by simp [circleField, Field.names])
      rfl
      (by
        intro m hm
        simp only [List.mem_singleton] at hm
        subst hm
        exact ⟨true, rfl⟩)⟩

/-- C20: On a method list of `n` members of at most one name each, as
`go/parser` builds it, the backward loop of `variantFromInterface` reads at
iteration `i` the `i`-th member of the original list, never an index outside
the list; it makes at most `n` iterations, from `n - 1` downward, and when it
runs to its end it has read every original member exactly once. -/
theorem backward_loop_reads (interfaceType : InterfaceType)
    (h : ∀ m ∈ interfaceType.methods.list, m.names.length ≤ 1) :
    (methodLoopTraced interfaceType.methods.NumFields interfaceType.methods.list []).1 =
      methodLoop interfaceType.methods.NumFields interfaceType.methods.list [] ∧
    (methodLoopTraced interfaceType.methods.NumFields interfaceType.methods.list []).2 <+:
      allReads interfaceType.methods.list ∧
    (∀ entry ∈
        (methodLoopTraced interfaceType.methods.NumFields interfaceType.methods.list []).2,
      entry.1 < interfaceType.methods.list.length ∧
      ∃ f, entry.2 = some f ∧ interfaceType.methods.list[entry.1]? = some f) ∧
    (methodLoopTraced interfaceType.methods.NumFields interfaceType.methods.list []).2.length ≤
      interfaceType.methods.list.length ∧
    (∀ r, methodLoop interfaceType.methods.NumFields interfaceType.methods.list [] = .ok r →
      (methodLoopTraced interfaceType.methods.NumFields interfaceType.methods.list []).2 =
        allReads interfaceType.methods.list) := by
  have hlen := (NumFields_eq_length_iff interfaceType.methods).2 h
  rw [hlen]
  obtain ⟨h1, h2⟩ := methodLoopTraced_reads interfaceType.methods.list [] []
  simp only [List.append_nil] at h1 h2
  refine ⟨methodLoopTraced_fst _ _ _, h1, ?_, ?_, ?_⟩
  · intro entry he
    exact allReads_mem _ entry (h1.subset he)
  · have := h1.length_le
    simpa [allReads] using this
  · intro r hr
    exact h2 r (by rw [methodLoopTraced_fst]; exact hr)

theorem backward_loop_reads_witness :
    (methodLoopTraced shapeInterface.methods.NumFields shapeInterface.methods.list []).2 =
      [(3, some stringField), (2, some circleField), (1, some rectangleField),
       (0, some squareField)] ∧
    (methodLoopTraced shapeInterface.methods.NumFields shapeInterface.methods.list []).2 <+:
      allReads shapeInterface.methods.list :=
  ⟨rfl, (backward_loop_reads shapeInterface (by
      simp [shapeInterface, FieldList.list, squareField, rectangleField, circleField,
        stringField, Field.names])).2.1⟩

/-- C13, as stated, fails: in a file whose first declaration is
`// @variant Point` over a struct type and whose second declaration is
documented by the line `// @variant` alone, the last documentation line of
the second declaration has `@variant` as second token and no third token, and
`variantsFromFile` fails with the error of the first declaration, `type must
be defined as an interface` at its type specification, not with `missing
variant name` at the comment of the second. -/
theorem missing_name_preempted :
    structThenNamelessFile.decls = [structDecl, namelessDecl] ∧
    namelessDecl =
      Decl.genDecl { doc := some [⟨300, "// @variant"⟩], tokPos := 312, lparen := 0,
                     specs := [Spec.typeSpec ⟨317, "_"⟩
                       (Expr.interfaceType 319 shapeInterface.methods)],
                     rparen := 0 } ∧
    strings.Fields "// @variant" = ["//", "@variant"] ∧
    variantsFromFile asciiToTitle allOn tokenExpr (.ok structThenNamelessFile) =
      .error (parseError "type must be defined as an interface" 223) ∧
    variantsFromFile asciiToTitle allOn tokenExpr (.ok structThenNamelessFile) ≠
      .error (parseError "missing variant name" 300) :=
  ⟨rfl, rfl, by decide, rfl, by
    have h : variantsFromFile asciiToTitle allOn tokenExpr (.ok structThenNamelessFile) =
        .error (parseError "type must be defined as an interface" 223) := rfl
    rw [h]
    simp [parseError]⟩

/-- C13, amended: for a documented general declaration whose last
documentation line has `@variant` as second token and no third token, the
loop body of `variantsFromFile` fails at that declaration with the error
`missing variant name` at the position of that comment, whatever names were
seen before; and `variantsFromFile` returns this error provided the
declarations before it went through. -/
theorem missing_variant_name (toTitle : Char → Char)
    (flags : Flags) (parseExpr : String → Except Error Expr)
    (gd : GenDecl) (docList : CommentGroup) (lastComment : Comment) (first : String)
    (hdoc : gd.doc = some docList) (hlast : docList.getLast? = some lastComment)
    (hf : strings.Fields lastComment.text = [first, "@variant"]) :
    (∀ packageName names,
      declStep toTitle flags parseExpr packageName names (Decl.genDecl gd) =
        .error (parseError "missing variant name" lastComment.slash)) ∧
    (∀ (file : File) before after variants,
      file.decls = before ++ Decl.genDecl gd :: after →
      declLoop toTitle flags parseExpr file.name.name before [] [] = .ok variants →
      variantsFromFile toTitle flags parseExpr (.ok file) =
        .error (parseError "missing variant name" lastComment.slash)) := by
  have hstep : ∀ packageName names,
      declStep toTitle flags parseExpr packageName names (Decl.genDecl gd) =
        .error (parseError "missing variant name" lastComment.slash) := by
    intro packageName names
    apply declStep_candidate_error
    simp [candidateOf, hdoc, hlast, annotatedName_marker_only parseExpr lastComment first hf]
  refine ⟨hstep, ?_⟩
  intro file before after variants hdecls hbefore
  exact variantsFromFile_step_error flags parseExpr file before after _ variants _ hdecls
    hbefore (hstep _)

theorem missing_variant_name_witness :
    strings.Fields "// @variant" = ["//", "@variant"] ∧
    variantsFromFile asciiToTitle allOn tokenExpr (.ok namelessFile) =
      .error (parseError "missing variant name" 300) :=
  ⟨by decide,
   (missing_variant_name asciiToTitle allOn tokenExpr
      { doc := some [⟨300, "// @variant"⟩], tokPos := 312, lparen := 0,
        specs := [Spec.typeSpec ⟨317, "_"⟩ (Expr.interfaceType 319 shapeInterface.methods)],
        rparen := 0 }
      [⟨300, "// @variant"⟩] ⟨300, "// @variant"⟩ "//" rfl rfl (by decide)).2
      namelessFile [shapeDecl] [shapeDecl] [shapeVariant] rfl rfl⟩

/-- C14: `variantsFromFile` fails fast.  When the declarations before a
declaration went through and its loop body fails, the call returns that error,
with no variant, however many variants were made before and whatever
declarations follow; and every error of the call is the error of the first
declaration whose loop body fails. -/
theorem fail_fast (toTitle : Char → Char)
    (flags : Flags) (parseExpr : String → Except Error Expr) (file : File) :
    (∀ before d after variants e,
      file.decls = before ++ d :: after →
      declLoop toTitle flags parseExpr file.name.name before [] [] = .ok variants →
      declStep toTitle flags parseExpr file.name.name (variants.map fun v => v.Name).reverse d =
        .error e →
      variantsFromFile toTitle flags parseExpr (.ok file) = .error e ∧
      returnedVariants (variantsFromFile toTitle flags parseExpr (.ok file)) = [] ∧
      ∀ others, variantsFromFile toTitle flags parseExpr
        (.ok { name := file.name, decls := before ++ d :: others }) = .error e) ∧
    (∀ e, variantsFromFile toTitle flags parseExpr (.ok file) = .error e →
      ∃ before d after variants,
        file.decls = before ++ d :: after ∧
        declLoop toTitle flags parseExpr file.name.name before [] [] = .ok variants ∧
        declStep toTitle flags parseExpr file.name.name (variants.map fun v => v.Name).reverse d =
          .error e) := by
  constructor
  · intro before d after variants e hdecls hbefore hd
    have h1 : variantsFromFile toTitle flags parseExpr (.ok file) = .error e := by
      simp only [variantsFromFile, hdecls]
      exact declLoop_first_error flags parseExpr _ before after d variants e hbefore hd
    refine ⟨h1, by rw [h1]; rfl, ?_⟩
    intro others
    simp only [variantsFromFile]
    exact declLoop_first_error flags parseExpr _ before others d variants e hbefore hd
  · intro e h
    obtain ⟨before, d, after, vs1, hdecls, hb, hd⟩ :=
      declLoop_error_split flags parseExpr _ _ _ _ _ h
    exact ⟨before, d, after, vs1, hdecls, hb, by simpa using hd⟩

theorem fail_fast_witness :
    declLoop asciiToTitle allOn tokenExpr "main" [shapeDecl] [] [] = .ok [shapeVariant] ∧
    variantsFromFile asciiToTitle allOn tokenExpr (.ok namelessFile) =
      .error (parseError "missing variant name" 300) ∧
    returnedVariants (variantsFromFile asciiToTitle allOn tokenExpr (.ok namelessFile)) = [] :=
  ⟨rfl,
   ((fail_fast asciiToTitle allOn tokenExpr namelessFile).1 [shapeDecl] namelessDecl [shapeDecl]
      [shapeVariant] _ rfl rfl rfl).1,
   ((fail_fast asciiToTitle allOn tokenExpr namelessFile).1 [shapeDecl] namelessDecl [shapeDecl]
      [shapeVariant] (parseError "missing variant name" 300) rfl rfl rfl).2.1⟩

/-- C12, as stated, fails: in `// @import fmt` / `// @variant "Shape"` the line
of the import has a third token that is no string literal and the last line
has `@variant` as second token, yet `variantsFromFile` fails with the error
`variant name is not a valid go identifier`, at the last line: the name is
checked before the import lines are looked at. -/
theorem import_error_preempted :
    importToken ⟨400, "// @import fmt"⟩ = some "fmt" ∧
    tokenExpr "fmt" = .ok (Expr.ident 0 "fmt") ∧
    strings.Fields "// @variant \x22Shape\x22" = ["//", "@variant", "\x22Shape\x22"] ∧
    variantsFromFile asciiToTitle allOn tokenExpr (.ok quotedNameFile) =
      .error (parseError "variant name is not a valid go identifier" 415) ∧
    variantsFromFile asciiToTitle allOn tokenExpr (.ok quotedNameFile) ≠
      .error (parseError "@import package name failed to parse as string" 400) :=
  ⟨by decide, rfl, by decide, rfl, by
    have h : variantsFromFile asciiToTitle allOn tokenExpr (.ok quotedNameFile) =
        .error (parseError "variant name is not a valid go identifier" 415) := rfl
    rw [h]
    simp [parseError]⟩

/-- C12, amended: for a declaration whose last documentation line declares a
variant name that is an identifier, the lines of the block are looked at in
order.  The first line that has `@import` as second token and no third token
fails the loop body with the error `missing package name in @import`, the
first whose third token does not parse as a string literal with the error
`@import package name failed to parse as string`, both at that line, and
`variantsFromFile` returns that error once the declarations before went
through.  When no line fails, the imports of the variant are the values of the
literals parsed from the third tokens of the `@import` lines, of any line of
the block, in order: the third tokens themselves where the parser gives the
token back as the text of the literal. -/
theorem imports_of_candidate (toTitle : Char → Char)
    (flags : Flags) (parseExpr : String → Except Error Expr)
    (gd : GenDecl) (docList : CommentGroup) (n : String) (hdoc : gd.doc = some docList)
    (hdecl : declares parseExpr (Decl.genDecl gd) n) :
    (∀ pre line post acc first,
      docList = pre ++ line :: post → importsLoop parseExpr pre [] = .ok acc →
      strings.Fields line.text = [first, "@import"] →
      (∀ packageName names,
        declStep toTitle flags parseExpr packageName names (Decl.genDecl gd) =
          .error (parseError "missing package name in @import" line.slash)) ∧
      (∀ (file : File) before after variants,
        file.decls = before ++ Decl.genDecl gd :: after →
        declLoop toTitle flags parseExpr file.name.name before [] [] = .ok variants →
        variantsFromFile toTitle flags parseExpr (.ok file) =
          .error (parseError "missing package name in @import" line.slash))) ∧
    (∀ pre line post acc first token more,
      docList = pre ++ line :: post → importsLoop parseExpr pre [] = .ok acc →
      strings.Fields line.text = first :: "@import" :: token :: more →
      (∀ pos value, parseExpr token ≠ .ok (Expr.basicLit pos LitKind.STRING value)) →
      (∀ packageName names,
        declStep toTitle flags parseExpr packageName names (Decl.genDecl gd) =
          .error (parseError "@import package name failed to parse as string" line.slash)) ∧
      (∀ (file : File) before after variants,
        file.decls = before ++ Decl.genDecl gd :: after →
        declLoop toTitle flags parseExpr file.name.name before [] [] = .ok variants →
        variantsFromFile toTitle flags parseExpr (.ok file) =
          .error (parseError "@import package name failed to parse as string" line.slash))) ∧
    (∀ packageName names name v,
      declStep toTitle flags parseExpr packageName names (Decl.genDecl gd) = .ok (some (name, v)) →
      v.Imports = docList.filterMap (importValue parseExpr) ∧
      ((∀ token pos value,
          parseExpr token = .ok (Expr.basicLit pos LitKind.STRING value) → value = token) →
        v.Imports = docList.filterMap importToken)) := by
  have hcand := candidateOf_declaring parseExpr gd docList n hdoc hdecl
  have lift : ∀ e, (∀ packageName names,
      declStep toTitle flags parseExpr packageName names (Decl.genDecl gd) = .error e) →
      (∀ packageName names,
        declStep toTitle flags parseExpr packageName names (Decl.genDecl gd) = .error e) ∧
      (∀ (file : File) before after variants,
        file.decls = before ++ Decl.genDecl gd :: after →
        declLoop toTitle flags parseExpr file.name.name before [] [] = .ok variants →
        variantsFromFile toTitle flags parseExpr (.ok file) = .error e) := by
    intro e hstep
    refine ⟨hstep, ?_⟩
    intro file before after variants hdecls hbefore
    exact variantsFromFile_step_error flags parseExpr file before after _ variants e hdecls
      hbefore (hstep _)
  refine ⟨?_, ?_, ?_⟩
  · intro pre line post acc first hlist hpre hf
    apply lift
    intro packageName names
    apply declStep_candidate_error
    rw [hcand, hlist, importsLoop_append parseExpr pre _ _ _ hpre, importsLoop_cons, hf]
    simp
  · intro pre line post acc first token more hlist hpre hf hbad
    apply lift
    intro packageName names
    apply declStep_candidate_error
    rw [hcand, hlist, importsLoop_append parseExpr pre _ _ _ hpre, importsLoop_cons, hf]
    rcases hpe : parseExpr token with e | x
    · simp
    · cases x with
      | basicLit p k value =>
        cases k
        case STRING => exact absurd hpe (hbad p value)
        all_goals simp
      | _ => simp
  · intro packageName names name v hstep
    obtain ⟨c, hc, _, _, hv⟩ :=
      (declStep_ok_some flags parseExpr packageName names _ name v).1 hstep
    have himp : v.Imports = c.imports :=
      (variantFromInterface_ok _ _ _ _ _ _ hv).2.2.2.2.2.2.2.2.1
    obtain ⟨gd', docList', _, hgd, hdoc', _, _, hloop, _⟩ := candidateOf_some_inv parseExpr _ c hc
    cases hgd
    rw [hdoc] at hdoc'
    cases hdoc'
    constructor
    · rw [himp]
      simpa using importsLoop_ok_eq parseExpr docList [] c.imports hloop
    · intro hlit
      rw [himp]
      simpa using importsLoop_ok_tokens parseExpr docList hlit [] c.imports hloop

theorem imports_of_candidate_witness :
    declares tokenExpr (Decl.genDecl bareImportGenDecl) "Shape" ∧
    variantsFromFile asciiToTitle allOn tokenExpr
        (.ok { name := ⟨0, "main"⟩, decls := [shapeDecl, Decl.genDecl bareImportGenDecl] }) =
      .error (parseError "@import package name failed to parse as string" 600) ∧
    declares tokenExpr (Decl.genDecl importingGenDecl) "Shape" ∧
    (∀ name v,
      declStep asciiToTitle allOn tokenExpr "main" [] (Decl.genDecl importingGenDecl) = .ok (some (name, v)) →
      v.Imports = ["\x22fmt\x22", "\x22math\x22"]) :=
  ⟨⟨_, _, _, "//", "Shape", [], 0, rfl, rfl, rfl, by decide, rfl⟩,
   ((imports_of_candidate asciiToTitle allOn tokenExpr bareImportGenDecl _ "Shape" rfl
      ⟨_, _, _, "//", "Shape", [], 0, rfl, rfl, rfl, by decide, rfl⟩).2.1
      [] ⟨600, "// @import fmt"⟩ [⟨615, "// @variant Shape"⟩] [] "//" "fmt" [] rfl rfl
      (by decide) (by intro pos value h; cases h)).2
      { name := ⟨0, "main"⟩, decls := [shapeDecl, Decl.genDecl bareImportGenDecl] }
      [shapeDecl] [] [shapeVariant] rfl rfl,
   ⟨_, _, _, "//", "Shape", [], 0, rfl, rfl, rfl, by decide, rfl⟩,
   fun name v h =>
    ((imports_of_candidate asciiToTitle allOn tokenExpr importingGenDecl _ "Shape" rfl
      ⟨_, _, _, "//", "Shape", [], 0, rfl, rfl, rfl, by decide, rfl⟩).2.2 "main" [] name v h).1.trans
      (by decide)⟩

/-- C15, as stated, fails: a file that declares the variants `Shape` and
`shape` is accepted, the two names differ, and both variants get the output
file name `shape_variant.go`. -/
theorem output_name_shared :
    variantsFromFile asciiToTitle allOn tokenExpr (.ok caseFile) = .ok [shapeVariant, lowerShapeVariant] ∧
    shapeVariant.Name ≠ lowerShapeVariant.Name ∧
    outputFileName asciiToLower shapeVariant = "shape_variant.go" ∧
    outputFileName asciiToLower lowerShapeVariant = "shape_variant.go" :=
  ⟨rfl, by decide, by decide, by decide⟩

/-- C15, amended: the variants returned for a file have pairwise distinct
names; two of them get the same output file name exactly when their names
agree after `strings.ToLower`; so the output file names are pairwise distinct
when the lower-cased names are. -/
theorem output_names_distinct (toTitle : Char → Char) (toLower : Char → Char)
    (flags : Flags) (parseExpr : String → Except Error Expr)
    (file : File) (variants : List variant)
    (h : variantsFromFile toTitle flags parseExpr (.ok file) = .ok variants) :
    (variants.map fun v => v.Name).Nodup ∧
    (∀ v w, outputFileName toLower v = outputFileName toLower w ↔
      strings.ToLower toLower v.Name = strings.ToLower toLower w.Name) ∧
    ((variants.map fun v => strings.ToLower toLower v.Name).Nodup →
      (variants.map (outputFileName toLower)).Nodup) := by
  obtain ⟨made, h1, _, _, h4, _⟩ := declLoop_ok flags parseExpr _ _ _ _ _ h
  simp only [List.nil_append] at h1
  subst h1
  refine ⟨h4, outputFileName_eq_iff, ?_⟩
  intro hnd
  have hmap : variants.map (outputFileName toLower) =
      (variants.map fun v => strings.ToLower toLower v.Name).map (fun s => s ++ "_variant.go") := by
    simp [outputFileName]
  rw [hmap]
  exact hnd.map (fun a b hab => string_append_right_cancel a b _ hab)

theorem output_names_distinct_witness :
    variantsFromFile asciiToTitle allOn tokenExpr (.ok shapeColorFile) =
      .ok [shapeVariant, colorVariant] ∧
    [shapeVariant, colorVariant].map (outputFileName asciiToLower) =
      ["shape_variant.go", "color_variant.go"] ∧
    ([shapeVariant, colorVariant].map fun v => strings.ToLower asciiToLower v.Name).Nodup ∧
    ([shapeVariant, colorVariant].map (outputFileName asciiToLower)).Nodup :=
  ⟨rfl, by decide, by decide,
   (output_names_distinct asciiToTitle asciiToLower allOn tokenExpr shapeColorFile
      [shapeVariant, colorVariant] rfl).2.2 (by decide)⟩

/-- C17, as stated, fails: the distinct variant names `shape` and `Shape` get
the same marker method, `isShape`. -/
theorem marker_shared :
    "shape" ≠ "Shape" ∧
    "is" ++ strings.Title asciiToTitle "shape" = "isShape" ∧
    "is" ++ strings.Title asciiToTitle "Shape" = "isShape" ∧
    markerMethod asciiToTitle "shape" = markerMethod asciiToTitle "Shape" :=
  ⟨by decide, by decide, by decide, rfl⟩

/-- C17, amended: the marker method of a variant is named `is` followed by
`strings.Title` of the variant name, so two variant names get the same marker
exactly when their title forms are equal, and distinct markers when these
differ.  For names without separator, as identifiers are, the title forms are
equal exactly when the names agree after their first rune is put in title
case. -/
theorem marker_names (toTitle : Char → Char) (a b : String) :
    (markerName toTitle a = markerName toTitle b ↔ strings.Title toTitle a = strings.Title toTitle b) ∧
    (strings.Title toTitle a ≠ strings.Title toTitle b → markerMethod toTitle a ≠ markerMethod toTitle b) ∧
    (∀ x xs y ys, a = String.mk (x :: xs) → b = String.mk (y :: ys) →
      (∀ c ∈ x :: xs, strings.isSeparator c = false) →
      (∀ c ∈ y :: ys, strings.isSeparator c = false) →
      (markerName toTitle a = markerName toTitle b ↔ toTitle x = toTitle y ∧ xs = ys)) := by
  have h1 : markerName toTitle a = markerName toTitle b ↔ strings.Title toTitle a = strings.Title toTitle b := by
    constructor
    · intro h; exact string_append_left_cancel _ _ _ h
    · intro h; simp [markerName, h]
  refine ⟨h1, ?_, ?_⟩
  · intro hne heq
    apply hne
    simp only [markerMethod, Field.mk.injEq, List.cons.injEq, Ident.mk.injEq, and_true,
      true_and] at heq
    exact string_append_left_cancel _ _ _ heq
  · intro x xs y ys ha hb hx hy
    rw [h1, ha, hb, Title_word x xs hx, Title_word y ys hy]
    constructor
    · intro h
      have := congrArg String.data h
      simpa using this
    · rintro ⟨h, rfl⟩
      rw [h]

theorem marker_names_witness :
    strings.Title asciiToTitle "Shape" ≠ strings.Title asciiToTitle "Circle" ∧
    markerMethod asciiToTitle "Shape" ≠ markerMethod asciiToTitle "Circle" :=
  ⟨by decide, (marker_names asciiToTitle "Shape" "Circle").2.1 (by decide)⟩

/-- C16, as stated, fails: on the same variant, made from the same contents
with the same flags, the run `govariant a/example.go` and the run
`govariant b/example.go` give different texts. -/
theorem output_depends_on_arguments :
    variantFromInterface asciiToTitle allOn shapeInterface "Shape" "main" [] = .ok shapeVariant ∧
    generateSourceCode asciiToTitle ["govariant", "a/example.go"] nodeFmt keepText shapeVariant ≠
      generateSourceCode asciiToTitle ["govariant", "b/example.go"] nodeFmt keepText shapeVariant :=
  ⟨rfl, by decide⟩

/-- C16, amended: the text produced by `generateSourceCode` is determined by
the variant, the formatters and the command-line arguments after the program
name: the name of the program has no bearing, and the text handed to
`format.Source` is the header comment that quotes the command line followed by
a body that does not depend on it. -/
theorem output_determined (toTitle : Char → Char) (gofmt : Expr → Except Error String)
    (formatSource : String → Except Error String) (v : variant) :
    (∀ program program' rest,
      generateSourceCode toTitle (program :: rest) gofmt formatSource v =
        generateSourceCode toTitle (program' :: rest) gofmt formatSource v) ∧
    (∀ args out, executeTemplate toTitle args gofmt v = .ok out →
      ∃ cmd body, command args = .ok cmd ∧ out = headerText cmd ++ body ∧
        ∀ args' cmd', command args' = .ok cmd' →
          executeTemplate toTitle args' gofmt v = .ok (headerText cmd' ++ body)) := by
  constructor
  · intro program program' rest
    simp [generateSourceCode, executeTemplate, command]
  · intro args out h
    exact executeTemplate_header args gofmt v out h

theorem output_determined_witness :
    generateSourceCode asciiToTitle ["/usr/bin/govariant", "example.go"] nodeFmt keepText shapeVariant =
      generateSourceCode asciiToTitle ["govariant", "example.go"] nodeFmt keepText shapeVariant ∧
    ∃ cmd body, command ["govariant", "example.go"] = .ok cmd ∧
      ∀ args' cmd', command args' = .ok cmd' →
        executeTemplate asciiToTitle args' nodeFmt shapeVariant = .ok (headerText cmd' ++ body) :=
  ⟨(output_determined asciiToTitle nodeFmt keepText shapeVariant).1 _ _ _,
   match (output_determined asciiToTitle nodeFmt keepText shapeVariant).2 ["govariant", "example.go"] _ rfl with
   | ⟨cmd, body, h1, _, h3⟩ => ⟨cmd, body, h1, h3⟩⟩

end Govariant
